import Mathlib

/-!
# Verification of the dborbit / dbtool schema reconciliation engine

This file gives a shallow embedding of the schema reconciliation engine:
the SQL statement splitter, the DDL normalizer, the schema differs
(`schema_diff` from `src/dborbit/schema.py` and `diff` from
`dbtool/schema/diff.py`), the live-schema readers, the migration file
reader (`dbtool/migrations/reader.py`) and the migration runner
(`dbtool/migrations/runner.py`).

Pure functions are translated directly.  Interaction with the database
cursor is modelled by passing the data the cursor would return (table
listings, `SHOW CREATE TABLE` output, the set of applied versions) as
parameters, and by recording the actions the runner performs against
the session as an explicit event trace.  External libraries (hashlib
digests, `sqlparse.split`, `difflib.unified_diff`) are modelled as
function parameters.  Character-level functions model CPython string
and `re` semantics on ASCII text.
-/

/-- Python whitespace (`str.strip`, `\s` in `re`), ASCII range. -/
def isPyWs (c : Char) : Bool :=
  c = ' ' || c = '\t' || c = '\n' || c = '\r' || c = '\x0b' || c = '\x0c'

/-- Python word character (`\w` in `re`), ASCII range. -/
def isWordChar (c : Char) : Bool :=
  c.isAlpha || c.isDigit || c = '_'

/-- `str.lstrip()` on a character list. -/
def lstripL (l : List Char) : List Char := l.dropWhile isPyWs

/-- `str.rstrip()` on a character list. -/
def rstripL (l : List Char) : List Char := (l.reverse.dropWhile isPyWs).reverse

/-- `str.strip()` on a character list. -/
def stripL (l : List Char) : List Char := rstripL (lstripL l)

/-- Case-insensitive literal match: `pat` is given in lowercase; on success
returns the input with the matched characters removed. -/
def dropCI : List Char → List Char → Option (List Char)
  | [], l => some l
  | _ :: _, [] => none
  | p :: ps, c :: cs => if c.toLower = p then dropCI ps cs else none

/-- `\s+` (greedy): at least one whitespace character, then all following
whitespace. -/
def ws1 : List Char → Option (List Char)
  | [] => none
  | c :: cs => if isPyWs c then some (cs.dropWhile isPyWs) else none

/-- Greedy `\d+`: at least one ASCII digit, then all following digits. -/
def digits1 : List Char → Option (List Char)
  | [] => none
  | c :: cs => if c.isDigit then some (cs.dropWhile Char.isDigit) else none

theorem dropCI_length : ∀ (p l r : List Char), dropCI p l = some r →
    r.length + p.length = l.length := by
  intro p
  induction p with
  | nil => intro l r h; simp [dropCI] at h; simp [h]
  | cons q ps ih =>
    intro l r h
    cases l with
    | nil => simp [dropCI] at h
    | cons c cs =>
      simp only [dropCI] at h
      split at h
      · have := ih cs r h
        simp [List.length_cons]; omega
      · exact absurd h (by simp)

theorem ws1_length : ∀ (l r : List Char), ws1 l = some r → r.length < l.length := by
  intro l r h
  cases l with
  | nil => simp [ws1] at h
  | cons c cs =>
    simp only [ws1] at h
    split at h
    · cases h
      have := (List.dropWhile_sublist (l := cs) isPyWs).length_le
      simp; omega
    · exact absurd h (by simp)

theorem digits1_length : ∀ (l r : List Char), digits1 l = some r → r.length < l.length := by
  intro l r h
  cases l with
  | nil => simp [digits1] at h
  | cons c cs =>
    simp only [digits1] at h
    split at h
    · cases h
      have := (List.dropWhile_sublist (l := cs) Char.isDigit).length_le
      simp; omega
    · exact absurd h (by simp)

/-- The tail boundary `\b` after `EXISTS`: end of input or a non-word
character. -/
def tailBoundary (r : List Char) : Option (List Char) :=
  match r with
  | [] => some []
  | c :: _ => if isWordChar c then none else some r

/-- One attempt of `\bIF\s+NOT\s+EXISTS\b` (case-insensitive) at the head of
the input; the boundary before `I` is the caller's job.  On success, the
remainder after the match. -/
def matchINE (l : List Char) : Option (List Char) :=
  (dropCI ("if".toList) l).bind fun r1 =>
  (ws1 r1).bind fun r2 =>
  (dropCI ("not".toList) r2).bind fun r3 =>
  (ws1 r3).bind fun r4 =>
  (dropCI ("exists".toList) r4).bind fun r5 =>
  tailBoundary r5

theorem tailBoundary_length (l r : List Char) (h : tailBoundary l = some r) :
    r.length ≤ l.length := by
  cases l with
  | nil => simp [tailBoundary] at h; simp [← h]
  | cons c cs =>
    simp only [tailBoundary] at h
    split at h
    · exact absurd h (by simp)
    · cases h; exact le_refl _

theorem matchINE_length (l r : List Char) (h : matchINE l = some r) :
    r.length < l.length := by
  simp only [matchINE, Option.bind_eq_some] at h
  obtain ⟨r1, h1, r2, h2, r3, h3, r4, h4, r5, h5, h6⟩ := h
  have e1 := dropCI_length _ _ _ h1
  have e2 := ws1_length _ _ h2
  have e3 := dropCI_length _ _ _ h3
  have e4 := ws1_length _ _ h4
  have e5 := dropCI_length _ _ _ h5
  have e6 := tailBoundary_length _ _ h6
  simp at e1 e3 e5
  omega

/-- One attempt of `AUTO_INCREMENT=\d+\s*` (case-insensitive) at the head of
the input.  On success, the remainder after the match. -/
def matchAI (l : List Char) : Option (List Char) :=
  (dropCI ("auto_increment=".toList) l).bind fun r1 =>
  (digits1 r1).bind fun r2 =>
  some (r2.dropWhile isPyWs)

theorem matchAI_length (l r : List Char) (h : matchAI l = some r) :
    r.length < l.length := by
  simp only [matchAI, Option.bind_eq_some, Option.some_inj] at h
  obtain ⟨r1, h1, r2, h2, h3⟩ := h
  subst h3
  have e1 := dropCI_length _ _ _ h1
  have e2 := digits1_length _ _ h2
  have e3 := (List.dropWhile_sublist (l := r2) isPyWs).length_le
  simp at e1
  omega

/-- Fuel-based version of the `re.sub(r"\bIF\s+NOT\s+EXISTS\b", "", ...)`
scan (structural recursion, so that proofs can evaluate it). -/
def p1ineF : Nat → Bool → List Char → List Char
  | 0, _, l => l
  | _ + 1, _, [] => []
  | fuel + 1, prevW, c :: cs =>
    if prevW then c :: p1ineF fuel (isWordChar c) cs
    else
      match matchINE (c :: cs) with
      | some rest => p1ineF fuel true rest
      | none => c :: p1ineF fuel (isWordChar c) cs

/-- The scan of `re.sub(r"\bIF\s+NOT\s+EXISTS\b", "", stmt, flags=re.I)`:
left-to-right, non-overlapping; `prevW` tracks whether the previous
character of the original string was a word character (the `\b` state). -/
def p1ine (prevW : Bool) (l : List Char) : List Char :=
  p1ineF l.length prevW l

theorem p1ineF_nil (fuel : Nat) (pw : Bool) : p1ineF fuel pw [] = [] := by
  cases fuel <;> rfl

theorem p1ineF_fuel : ∀ (fuel fuel2 : Nat) (pw : Bool) (l : List Char),
    l.length ≤ fuel → l.length ≤ fuel2 → p1ineF fuel pw l = p1ineF fuel2 pw l := by
  intro fuel
  induction fuel with
  | zero =>
    intro fuel2 pw l h1 _
    have : l = [] := List.length_eq_zero.mp (Nat.le_zero.mp h1)
    subst this
    rw [p1ineF_nil, p1ineF_nil]
  | succ f ih =>
    intro fuel2 pw l h1 h2
    cases l with
    | nil => rw [p1ineF_nil, p1ineF_nil]
    | cons c cs =>
      cases fuel2 with
      | zero => simp at h2
      | succ f2 =>
        simp only [p1ineF]
        have hcs : cs.length ≤ f := by simp at h1; omega
        have hcs2 : cs.length ≤ f2 := by simp at h2; omega
        cases hm : matchINE (c :: cs) with
        | some rest =>
          have hr := matchINE_length _ _ hm
          have hrf : rest.length ≤ f := by simp at h1 hr; omega
          have hrf2 : rest.length ≤ f2 := by simp at h2 hr; omega
          by_cases hpw : pw <;> simp [hpw, hm, ih f2 _ _ hcs hcs2, ih f2 _ _ hrf hrf2]
        | none =>
          by_cases hpw : pw <;> simp [hpw, hm, ih f2 _ _ hcs hcs2]

theorem p1ine_nil (pw : Bool) : p1ine pw [] = [] := rfl

theorem p1ine_cons_word (c : Char) (cs : List Char) :
    p1ine true (c :: cs) = c :: p1ine (isWordChar c) cs := rfl

theorem p1ine_cons_match (c : Char) (cs rest : List Char)
    (h : matchINE (c :: cs) = some rest) :
    p1ine false (c :: cs) = p1ine true rest := by
  have hr := matchINE_length _ _ h
  simp only [p1ine, List.length_cons, p1ineF, h, Bool.false_eq_true, if_false]
  exact p1ineF_fuel _ _ _ _ (by simp at hr; omega) (le_refl _)

theorem p1ine_cons_nomatch (c : Char) (cs : List Char)
    (h : matchINE (c :: cs) = none) :
    p1ine false (c :: cs) = c :: p1ine (isWordChar c) cs := by
  simp only [p1ine, List.length_cons, p1ineF, h, Bool.false_eq_true, if_false]

/-- Fuel-based version of the `re.sub(r"AUTO_INCREMENT=\d+\s*", "", ...)`
scan. -/
def p2aiF : Nat → List Char → List Char
  | 0, l => l
  | _ + 1, [] => []
  | fuel + 1, c :: cs =>
    match matchAI (c :: cs) with
    | some rest => p2aiF fuel rest
    | none => c :: p2aiF fuel cs

/-- The scan of `re.sub(r"AUTO_INCREMENT=\d+\s*", "", stmt, flags=re.I)`. -/
def p2ai (l : List Char) : List Char :=
  p2aiF l.length l

theorem p2aiF_nil (fuel : Nat) : p2aiF fuel [] = [] := by
  cases fuel <;> rfl

theorem p2aiF_fuel : ∀ (fuel fuel2 : Nat) (l : List Char),
    l.length ≤ fuel → l.length ≤ fuel2 → p2aiF fuel l = p2aiF fuel2 l := by
  intro fuel
  induction fuel with
  | zero =>
    intro fuel2 l h1 _
    have : l = [] := List.length_eq_zero.mp (Nat.le_zero.mp h1)
    subst this
    rw [p2aiF_nil, p2aiF_nil]
  | succ f ih =>
    intro fuel2 l h1 h2
    cases l with
    | nil => rw [p2aiF_nil, p2aiF_nil]
    | cons c cs =>
      cases fuel2 with
      | zero => simp at h2
      | succ f2 =>
        simp only [p2aiF]
        have hcs : cs.length ≤ f := by simp at h1; omega
        have hcs2 : cs.length ≤ f2 := by simp at h2; omega
        cases hm : matchAI (c :: cs) with
        | some rest =>
          have hr := matchAI_length _ _ hm
          have hrf : rest.length ≤ f := by simp at h1 hr; omega
          have hrf2 : rest.length ≤ f2 := by simp at h2 hr; omega
          simp [hm, ih f2 _ hrf hrf2]
        | none => simp [hm, ih f2 _ hcs hcs2]

theorem p2ai_nil : p2ai [] = [] := rfl

theorem p2ai_cons_match (c : Char) (cs rest : List Char)
    (h : matchAI (c :: cs) = some rest) :
    p2ai (c :: cs) = p2ai rest := by
  have hr := matchAI_length _ _ h
  simp only [p2ai, List.length_cons, p2aiF, h]
  exact p2aiF_fuel _ _ _ (by simp at hr; omega) (le_refl _)

theorem p2ai_cons_nomatch (c : Char) (cs : List Char)
    (h : matchAI (c :: cs) = none) :
    p2ai (c :: cs) = c :: p2ai cs := by
  simp only [p2ai, List.length_cons, p2aiF, h]

/-- `re.sub(r"\s+", " ", stmt)`: every maximal whitespace run becomes one
space. -/
def collapseWs : List Char → List Char
  | [] => []
  | [c] => [if isPyWs c then ' ' else c]
  | c :: d :: cs =>
    if isPyWs c && isPyWs d then collapseWs (d :: cs)
    else (if isPyWs c then ' ' else c) :: collapseWs (d :: cs)

/-- Characters at which `str.splitlines` breaks, ASCII range. -/
def isLineBreak (c : Char) : Bool :=
  c = '\n' || c = '\r' || c = '\x0b' || c = '\x0c' || c = '\x1c' || c = '\x1d' || c = '\x1e'

/-- `str.splitlines(keepends=True)` on ASCII text: each chunk keeps its
line-break characters, `\r\n` counting as one break. -/
def splitlinesKeep : List Char → List (List Char)
  | [] => []
  | '\r' :: '\n' :: cs2 => ['\r', '\n'] :: splitlinesKeep cs2
  | c :: cs =>
    if isLineBreak c then [c] :: splitlinesKeep cs
    else
      match splitlinesKeep cs with
      | [] => [[c]]
      | l :: ls => (c :: l) :: ls

/-- Positions at which `pat` occurs as a substring of `l`. -/
def occPositions (pat l : List Char) : List Nat :=
  (List.range (l.length + 1)).filter (fun i => pat.isPrefixOf (l.drop i))

/-- `s.rsplit(sep, 1)[0]`: the prefix before the last occurrence of `sep`,
or all of `s` when `sep` does not occur. -/
def rsplitHead (pat l : List Char) : List Char :=
  match (occPositions pat l).getLast? with
  | some i => l.take i
  | none => l

/-- `re.match(r"^\s*DELIMITER\s+(.+)", line, re.I)`, returning the capture
group.  `.` does not match a newline; `\s+` is greedy but backtracks so
that `(.+)` can take at least one character. -/
def matchDelim (line : List Char) : Option (List Char) :=
  match dropCI ("delimiter".toList) (line.dropWhile isPyWs) with
  | none => none
  | some r =>
    let w := r.takeWhile isPyWs
    let rest := r.dropWhile isPyWs
    if w = [] then none
    else if rest ≠ [] then some (rest.takeWhile (fun c => c ≠ '\n'))
    else
      let w2 := (w.reverse.dropWhile (fun c => c = '\n')).reverse
      match w2.getLast? with
      | some c => if w2.length ≥ 2 then some [c] else none
      | none => none

namespace Dborbit

/-- The loop state of dborbit `statements`: the active delimiter, the
buffered lines, and the statements emitted so far. -/
structure SplitState where
  delim : List Char
  buf : List (List Char)
  out : List (List Char)

/-- One line of the `statements` loop (`src/dborbit/schema.py`). -/
def statementsStep (st : SplitState) (line : List Char) : SplitState :=
  match matchDelim line with
  | some newDelim =>
    if st.buf ≠ [] then
      { delim := newDelim, buf := [],
        out := st.out ++ [stripL (rsplitHead st.delim st.buf.join)] }
    else
      { delim := newDelim, buf := [], out := st.out }
  | none =>
    let buf := st.buf ++ [line]
    if st.delim.isSuffixOf (rstripL buf.join) then
      let stmt := stripL (rsplitHead st.delim buf.join)
      { delim := st.delim, buf := [],
        out := st.out ++ (if stmt ≠ [] then [stmt] else []) }
    else
      { delim := st.delim, buf := buf, out := st.out }

/-- dborbit `statements` (`src/dborbit/schema.py`): split a SQL script into
statements, honouring `DELIMITER` directives.  The flush on a delimiter
change and the final flush at end of input do not check the emitted text
for emptiness; only the mid-loop emission does. -/
def statements (sql : String) : List String :=
  let fin := (splitlinesKeep sql.toList).foldl statementsStep ⟨[';'], [], []⟩
  (if fin.buf ≠ [] then fin.out ++ [stripL fin.buf.join] else fin.out).map String.mk

example : statements "CREATE TABLE a (id INT);\nCREATE TABLE b (id INT);" =
    ["CREATE TABLE a (id INT)", "CREATE TABLE b (id INT)"] := by decide

example : statements "DELIMITER $$\nCREATE PROCEDURE p()\nBEGIN\nSELECT 1;\nEND$$\nDELIMITER ;\nSELECT 2;" =
    ["CREATE PROCEDURE p()\nBEGIN\nSELECT 1;\nEND", "SELECT 2"] := by decide

/-- dborbit `normalize` (`src/dborbit/schema.py`): drop `IF NOT EXISTS`,
drop `AUTO_INCREMENT=<n>` with trailing whitespace, collapse whitespace,
strip, lower-case. -/
def normalize (stmt : String) : String :=
  String.mk ((stripL (collapseWs (p2ai (p1ine false stmt.toList)))).map Char.toLower)

example : normalize "CREATE TABLE IF NOT EXISTS `t`  (id INT)\nAUTO_INCREMENT=42 ;" =
    "create table `t` (id int) ;" := by decide

end Dborbit

/-- `str.strip()` on a string. -/
def pyStrip (s : String) : String := String.mk (stripL s.toList)

/-- `str.lower()` on a string (ASCII range). -/
def pyLower (s : String) : String := String.mk (s.toList.map Char.toLower)

/-- Assignment `d[k] = v` on a Python dict modelled as an insertion-ordered
association list with unique keys: an existing key keeps its position and
gets the new value, a new key is appended. -/
def dictInsert (m : List (String × String)) (k v : String) : List (String × String) :=
  if (m.lookup k).isSome then m.map (fun p => if p.1 = k then (k, v) else p)
  else m ++ [(k, v)]

/-- The keys of a dict, in insertion order. -/
def dictKeys (m : List (String × String)) : List String := m.map Prod.fst

/-- The pattern `CREATE\s+TABLE\s+(?:IF\s+NOT\s+EXISTS\s+)?` followed by
an optional backtick: `IF\s+NOT\s+EXISTS\s+` here (from `_CREATE_RE`)
carries a trailing `\s+` and no word boundaries. -/
def matchINEsp (l : List Char) : Option (List Char) :=
  (dropCI ("if".toList) l).bind fun a =>
  (ws1 a).bind fun b =>
  (dropCI ("not".toList) b).bind fun c2 =>
  (ws1 c2).bind fun d =>
  (dropCI ("exists".toList) d).bind fun e =>
  ws1 e

/-- The table name after the optional backtick: `` `?(\w+) `` (the final
optional backtick of the pattern never affects the captured group). -/
def nameAfterTick (s : List Char) : Option String :=
  let s2 := match s with
    | '`' :: t => t
    | _ => s
  let w := s2.takeWhile isWordChar
  if w = [] then none else some (String.mk w)

/-- One attempt of
`` CREATE\s+TABLE\s+(?:IF\s+NOT\s+EXISTS\s+)?`?(\w+)`? `` (case-insensitive)
at the head of the input, returning the captured table name; the optional
`IF NOT EXISTS` group backtracks if no name follows it. -/
def matchCreateName (l : List Char) : Option String :=
  (dropCI ("create".toList) l).bind fun r1 =>
  (ws1 r1).bind fun r2 =>
  (dropCI ("table".toList) r2).bind fun r3 =>
  (ws1 r3).bind fun r4 =>
  match (matchINEsp r4).bind nameAfterTick with
  | some g => some g
  | none => nameAfterTick r4

/-- `_CREATE_RE.search`: try the pattern at every position, left to
right. -/
def searchCreate : List Char → Option String
  | [] => none
  | c :: cs =>
    match matchCreateName (c :: cs) with
    | some g => some g
    | none => searchCreate cs

namespace Dborbit

/-- dborbit `file_schema_map` (`src/dborbit/schema.py`), with the file
content passed as `script` and `hashlib.md5(...).hexdigest()` modelled by
the parameter `md5h`: maps each created table's lower-cased name to the
digest of the normalized creation statement. -/
def file_schema_map (script : String) (md5h : String → String) : List (String × String) :=
  (statements script).foldl
    (fun m stmt =>
      match searchCreate stmt.toList with
      | some name => dictInsert m (pyLower name) (md5h (normalize stmt))
      | none => m) []

/-- dborbit `db_schema_map` (`src/dborbit/schema.py`): `tables` models the
rows of `SELECT table_name FROM information_schema.tables WHERE
table_schema=%s` (note: no exclusion of any bookkeeping table), and
`showCreate` models the DDL column of `SHOW CREATE TABLE`. -/
def db_schema_map (tables : List String) (showCreate : String → String)
    (md5h : String → String) : List (String × String) :=
  tables.foldl
    (fun m tbl => dictInsert m (pyLower tbl) (md5h (normalize (showCreate tbl)))) []

/-- dborbit `schema_diff` (`src/dborbit/schema.py`), its pure core over the
two maps it builds: `(new, missing, altered)` with each list sorted. -/
def schema_diff (file_map db_map : List (String × String)) :
    List String × List String × List String :=
  (List.insertionSort (· ≤ ·)
      ((dictKeys file_map).dedup.filter (fun t => ¬ (dictKeys db_map).contains t)),
   List.insertionSort (· ≤ ·)
      ((dictKeys db_map).dedup.filter (fun t => ¬ (dictKeys file_map).contains t)),
   List.insertionSort (· ≤ ·)
      ((dictKeys file_map).filter
        (fun t => (dictKeys db_map).contains t && (file_map.lookup t != db_map.lookup t))))

end Dborbit

namespace Dbtool

/-- `SCHEMA_HISTORY_TABLE` from `dbtool/constants.py`.
Modelled from the spec: `dbtool/constants.py` is not among the source
files; the spec (§4.7, §6) places one history bookkeeping table inside the
target schema but does not fix its name, and no theorem below depends on
the concrete value. -/
def SCHEMA_HISTORY_TABLE : String := "schema_history"

/-- `IGNORED_TABLES = {SCHEMA_HISTORY_TABLE}` (`dbtool/schema/diff.py`). -/
def IGNORED_TABLES : List String := [SCHEMA_HISTORY_TABLE]

/-- dbtool `_current_schema` (`dbtool/schema/diff.py`): `rows` models the
first column of `SHOW FULL TABLES WHERE Table_type = 'BASE TABLE'`, and
`showCreate` the DDL column of `SHOW CREATE TABLE`. -/
def current_schema (rows : List String) (showCreate : String → String) :
    List (String × String) :=
  ((rows.filter (fun r => ¬ IGNORED_TABLES.contains r)).map
      (fun t => (t, showCreate t ++ ";"))).foldl
    (fun m p => dictInsert m p.1 p.2) []

/-- dbtool `diff` (`dbtool/schema/diff.py`), its pure core: `current` and
`desired` are the two table-to-DDL dicts; `setIter` models the iteration
order of a CPython set, which is unspecified and hash-seed dependent, so
it is a parameter applied to each computed key set (given here in
first-dict insertion order); `udiff` models `difflib.unified_diff` of the
split DDL lines. -/
def diff (setIter : List String → List String) (udiff : String → String → List String)
    (current desired : List (String × String)) (allow_destructive : Bool) : List String :=
  let createdKeys := setIter
    ((dictKeys desired).dedup.filter (fun t => ¬ (dictKeys current).contains t))
  let removedKeys := setIter
    ((dictKeys current).dedup.filter (fun t => ¬ (dictKeys desired).contains t))
  let commonKeys := setIter
    ((dictKeys desired).dedup.filter (fun t => (dictKeys current).contains t))
  (createdKeys.map (fun t => (desired.lookup t).getD "")) ++
  (removedKeys.map (fun t =>
    if allow_destructive then "DROP TABLE `" ++ t ++ "`;"
    else "-- !!! would execute `" ++ ("DROP TABLE `" ++ t ++ "`;") ++ "` (destructive)")) ++
  (commonKeys.flatMap (fun t =>
    if pyStrip ((desired.lookup t).getD "") ≠ pyStrip ((current.lookup t).getD "") then
      ["-- diff for table `" ++ t ++ "`"] ++
      (udiff ((current.lookup t).getD "") ((desired.lookup t).getD "")).map
        (fun ln => "-- " ++ ln) ++
      ["-- manual ALTER required for `" ++ t ++ "`"]
    else []))

end Dbtool

/-- Python string `<`, code-point lexicographic, on character lists
(kernel-computable, unlike the iterator-based `String` order). -/
def lexLtB : List Char → List Char → Bool
  | [], [] => false
  | [], _ :: _ => true
  | _ :: _, [] => false
  | a :: as, b :: bs => if a < b then true else if b < a then false else lexLtB as bs

theorem lexLtB_iff : ∀ (a b : List Char), lexLtB a b = true ↔ a < b := by
  intro a
  induction a with
  | nil =>
    intro b
    cases b with
    | nil =>
      simp only [lexLtB, Bool.false_eq_true, false_iff]
      intro h
      cases h
    | cons x xs =>
      simp only [lexLtB, true_iff]
      exact List.Lex.nil
  | cons a as ih =>
    intro b
    cases b with
    | nil =>
      simp only [lexLtB, Bool.false_eq_true, false_iff]
      intro h
      cases h
    | cons x xs =>
      simp only [lexLtB]
      by_cases h1 : a < x
      · simp only [h1, if_true, true_iff]
        exact List.Lex.rel h1
      · by_cases h2 : x < a
        · simp only [h1, h2, if_false, if_true, Bool.false_eq_true, false_iff]
          intro h
          cases h with
          | rel hlt => exact h1 hlt
          | cons _ => exact absurd h2 (lt_irrefl a)
        · have hax : a = x := le_antisymm (not_lt.mp h2) (not_lt.mp h1)
          subst hax
          simp only [h1, h2, if_false]
          rw [ih xs]
          constructor
          · intro h
            exact List.Lex.cons h
          · intro h
            cases h with
            | rel hlt => exact absurd hlt h1
            | cons htl => exact htl

theorem lexLtB_iff_string (a b : String) : lexLtB a.toList b.toList = true ↔ a < b := by
  rw [lexLtB_iff, String.lt_iff_toList_lt]

theorem lexLeB_iff_string (a b : String) : lexLtB b.toList a.toList = false ↔ a ≤ b := by
  rw [← not_lt]
  constructor
  · intro h hlt
    rw [← lexLtB_iff_string] at hlt
    rw [h] at hlt
    exact absurd hlt (by simp)
  · intro h
    cases hx : lexLtB b.toList a.toList with
    | false => rfl
    | true => exact absurd ((lexLtB_iff_string b a).mp hx) h

/-- The character class `[0-9A-Za-z_.-]` of the version group in
`_MIGR_RE` (`dbtool/migrations/reader.py`). -/
def isVersionChar (c : Char) : Bool :=
  c.isAlpha || c.isDigit || c = '_' || c = '.' || c = '-'

/-- The tail `(.+?)\.sql$` of `_MIGR_RE`: at least one character, none a
newline (`.` does not match `\n`), then `.sql` at the end of the name —
case-insensitively, since `_MIGR_RE` is compiled with `re.IGNORECASE`
(Python `$` also matches just before one final newline; `'\n'` and `'.'`
are fixed points of `Char.toLower`, so lowering the whole name first
checks exactly the letters). -/
def descPart (l : List Char) : Option String :=
  let core : Option (List Char) :=
    if (".sql".toList).isSuffixOf (l.map Char.toLower) then some (l.take (l.length - 4))
    else if (".sql\n".toList).isSuffixOf (l.map Char.toLower) then some (l.take (l.length - 5))
    else none
  match core with
  | some d => if d ≠ [] && d.all (fun c => c ≠ '\n') then some (String.mk d) else none
  | none => none

/-- The non-greedy `([0-9A-Za-z_.-]*?)__` of `_MIGR_RE` with backtracking:
the shortest version-character prefix followed by `__` whose remainder
satisfies `descPart`. -/
def splitVersionAux : List Char → Option (List Char × String)
  | [] => none
  | c :: cs =>
    match (if c = '_' then
             match cs with
             | '_' :: rest => descPart rest
             | _ => none
           else none) with
    | some d => some ([], d)
    | none =>
      if isVersionChar c then
        match splitVersionAux cs with
        | some (v, d) => some (c :: v, d)
        | none => none
      else none

namespace Dbtool

/-- `_MIGR_RE.match(name)` (`dbtool/migrations/reader.py`):
`^(V|R)([0-9A-Za-z_.-]*?)__(.+?)\.sql$` with `re.IGNORECASE`, returning
the three groups (the one-letter kind, the version, the description). -/
def migParse (name : String) : Option (Char × String × String) :=
  match name.toList with
  | [] => none
  | c :: rest =>
    if c = 'V' || c = 'v' || c = 'R' || c = 'r' then
      match splitVersionAux rest with
      | some (v, d) => some (c, String.mk v, d)
      | none => none
    else none

/-- `pathlib.PurePath.suffix` of a file name: the extension from the last
dot, unless the dot is the first or the last character. -/
def pathSuffix (name : String) : String :=
  let l := name.toList
  match (occPositions ['.'] l).getLast? with
  | some i => if 0 < i ∧ i < l.length - 1 then String.mk (l.drop i) else ""
  | none => ""

/-- dbtool `MigrationFile` (`dbtool/migrations/reader.py`): the parsed
filename groups, the file name and content, and the content checksum
(`calculate_checksum` of `dbtool/history.py`, a SHA-256 hex digest,
modelled by the `sha` parameter at the construction site). -/
structure MigrationFile where
  pfx : Char
  version : String
  description : String
  name : String
  sql : String
  checksum : String
deriving DecidableEq, Repr

/-- `MigrationFile.repeatable`: `self.prefix.upper() == "R"`. -/
def MigrationFile.repeatable (m : MigrationFile) : Bool := m.pfx.toUpper = 'R'

/-- `MigrationFile.ordering_key`: `(1 if self.repeatable else 0, self.version)`. -/
def MigrationFile.ordering_key (m : MigrationFile) : Nat × String :=
  (if m.repeatable then 1 else 0, m.version)

/-- Python tuple comparison on `(int, str)` keys: lexicographic. -/
def keyLe (a b : Nat × String) : Prop :=
  a.1 < b.1 ∨ (a.1 = b.1 ∧ a.2 ≤ b.2)

instance : DecidableRel keyLe := fun a b =>
  decidable_of_iff (a.1 < b.1 ∨ (a.1 = b.1 ∧ lexLtB b.2.toList a.2.toList = false))
    (by unfold keyLe; rw [lexLeB_iff_string])

/-- The comparison `sorted(items, key=lambda m: m.ordering_key())` sorts
by. -/
def migLe (a b : MigrationFile) : Prop := keyLe a.ordering_key b.ordering_key

instance : DecidableRel migLe := fun a b => by
  unfold migLe; infer_instance

instance : IsTotal MigrationFile migLe := by
  constructor
  intro a b
  unfold migLe keyLe
  rcases Nat.lt_trichotomy a.ordering_key.1 b.ordering_key.1 with h | h | h
  · exact Or.inl (Or.inl h)
  · rcases le_total a.ordering_key.2 b.ordering_key.2 with h2 | h2
    · exact Or.inl (Or.inr ⟨h, h2⟩)
    · exact Or.inr (Or.inr ⟨h.symm, h2⟩)
  · exact Or.inr (Or.inl h)

instance : IsTrans MigrationFile migLe := by
  constructor
  intro a b c hab hbc
  unfold migLe keyLe at *
  rcases hab with h1 | ⟨e1, l1⟩
  · rcases hbc with h2 | ⟨e2, _⟩
    · exact Or.inl (h1.trans h2)
    · exact Or.inl (e2 ▸ h1)
  · rcases hbc with h2 | ⟨e2, l2⟩
    · exact Or.inl (e1 ▸ h2)
    · exact Or.inr ⟨e1.trans e2, l1.trans l2⟩

/-- dbtool `discover` (`dbtool/migrations/reader.py`): `dirExists` models
`migrations_dir.exists()`, `listing` the file names from `iterdir()`,
`content` each file's text and `sha` the checksum function.  A missing
directory yields `[]`; names whose suffix is not `.sql` or that do not
match `_MIGR_RE` are skipped; the survivors are sorted by
`ordering_key`. -/
def discover (dirExists : Bool) (listing : List String) (content : String → String)
    (sha : String → String) : List MigrationFile :=
  if ¬ dirExists then []
  else
    List.insertionSort migLe
      (listing.filterMap (fun n =>
        if pyLower (pathSuffix n) = ".sql" then
          (migParse n).map (fun p =>
            ⟨p.1, p.2.1, p.2.2, n, content n, sha (content n)⟩)
        else none))

/-- An action the migration runner performs against the database session
or standard output. -/
inductive Event where
  | printed (s : String)
  | executed (stmt : String)
  | recorded (version : Option String) (descr typ script checksum : String) (execMs : Nat)
deriving DecidableEq, Repr

/-- One attempt of `\bDROP\b` (case-insensitive) at the head. -/
def matchDROP (l : List Char) : Bool :=
  match dropCI ("drop".toList) l with
  | some r => (tailBoundary r).isSome
  | none => false

def dropFoundAux : Bool → List Char → Bool
  | _, [] => false
  | prevW, c :: cs => (!prevW && matchDROP (c :: cs)) || dropFoundAux (isWordChar c) cs

/-- `_DROP_RE.search(sql)` (`dbtool/migrations/runner.py`): does the text
contain the keyword `DROP` (`\bDROP\b`, case-insensitive)? -/
def dropFound (sql : String) : Bool := dropFoundAux false sql.toList

/-- dbtool `MigrationRunner._apply_single` (`dbtool/migrations/runner.py`):
the events performed, plus the raised error message if any.  `split`
models `dbtool.utils.split_sql` (the sqlparse library); wall-clock timing
is environmental, so the recorded duration is taken as 0. -/
def apply_single (split : String → List String) (mf : MigrationFile)
    (dry_run allow_destructive repeatable : Bool) : List Event × Option String :=
  let pre : List Event :=
    [.printed ((if dry_run then "(DRY) " else "") ++ "Applying " ++ mf.name)]
  if !allow_destructive && dropFound mf.sql then
    (pre, some (mf.name ++ " contains DROP statements – re‑run with --allow-destructive to proceed."))
  else if dry_run then
    (pre ++ [.printed mf.sql], none)
  else
    (pre ++ (split mf.sql).map Event.executed ++
      [.recorded (if repeatable then none else some mf.version) mf.description
        (if repeatable then "Repeatable" else "SQL") mf.name mf.checksum 0], none)

/-- `if target and mf.version > target: break` — an empty-string target is
falsy in Python, and Python string comparison is code-point
lexicographic. -/
def targetStops (target : Option String) (version : String) : Bool :=
  match target with
  | some t => if t = "" then false else decide (t < version)
  | none => false

/-- The first loop of `migrate`: pending versioned migrations in
discovery order, stopping at the target bound, skipping already-applied
versions, aborting at the first raised error. -/
def migrateLoop1 (split : String → List String) (applied : List String)
    (dry_run : Bool) (target : Option String) (allow_destructive : Bool) :
    List MigrationFile → List Event × Option String
  | [] => ([], none)
  | mf :: rest =>
    if mf.repeatable then migrateLoop1 split applied dry_run target allow_destructive rest
    else if targetStops target mf.version then ([], none)
    else if applied.contains mf.version then
      migrateLoop1 split applied dry_run target allow_destructive rest
    else
      match apply_single split mf dry_run allow_destructive false with
      | (evs, some e) => (evs, some e)
      | (evs, none) =>
        let p := migrateLoop1 split applied dry_run target allow_destructive rest
        (evs ++ p.1, p.2)

/-- The second loop of `migrate`: every repeatable migration, in
discovery order. -/
def migrateLoop2 (split : String → List String) (dry_run allow_destructive : Bool) :
    List MigrationFile → List Event × Option String
  | [] => ([], none)
  | mf :: rest =>
    if mf.repeatable then
      match apply_single split mf dry_run allow_destructive true with
      | (evs, some e) => (evs, some e)
      | (evs, none) =>
        let p := migrateLoop2 split dry_run allow_destructive rest
        (evs ++ p.1, p.2)
    else migrateLoop2 split dry_run allow_destructive rest

/-- dbtool `MigrationRunner.migrate` (`dbtool/migrations/runner.py`), after
the advisory lock is acquired: the versioned loop over the discovered
files, then the repeatable loop; `applied` models the non-null version
values fetched from the history table.  The trace collects the events of
each `_apply_single` call, up to and including the file that raised. -/
def migrate (split : String → List String) (files : List MigrationFile)
    (applied : List String) (dry_run : Bool) (target : Option String)
    (allow_destructive : Bool) : List Event × Option String :=
  match migrateLoop1 split applied dry_run target allow_destructive files with
  | (evs, some e) => (evs, some e)
  | (evs, none) =>
    let p := migrateLoop2 split dry_run allow_destructive files
    (evs ++ p.1, p.2)

/-- The `version` fields of the history rows recorded in a trace, in
order. -/
def recordedVersions (l : List Event) : List (Option String) :=
  l.filterMap (fun e => match e with
    | .recorded v _ _ _ _ _ => some v
    | _ => none)

/-- The `script` fields of the history rows recorded in a trace, in
order. -/
def recordedScripts (l : List Event) : List String :=
  l.filterMap (fun e => match e with
    | .recorded _ _ _ s _ _ => some s
    | _ => none)

def Event.isExecuted : Event → Bool
  | .executed _ => true
  | _ => false

def Event.isRecorded : Event → Bool
  | .recorded _ _ _ _ _ _ => true
  | _ => false

end Dbtool

/-! ## Helper lemmas -/

theorem lookup_some_mem {l : List (String × String)} {k v : String}
    (h : l.lookup k = some v) : (k, v) ∈ l := by
  induction l with
  | nil => simp [List.lookup] at h
  | cons p ps ih =>
    obtain ⟨a, b⟩ := p
    rw [List.lookup] at h
    split at h
    · rename_i heq
      simp at heq
      cases h
      subst heq
      exact List.mem_cons_self _ _
    · exact List.mem_cons_of_mem _ (ih h)

theorem dictInsert_keys_mem {m : List (String × String)} {a v k : String}
    (h : k ∈ dictKeys (dictInsert m a v)) : k ∈ dictKeys m ∨ k = a := by
  unfold dictInsert at h
  split at h
  · simp only [dictKeys, List.map_map, List.mem_map, Function.comp] at h
    simp only [dictKeys, List.mem_map]
    obtain ⟨p, hp, he⟩ := h
    by_cases hc : p.1 = a
    · right
      simp [hc] at he
      exact he.symm
    · left
      exact ⟨p, hp, by simpa [hc] using he⟩
  · simp only [dictKeys, List.map_append, List.mem_append, List.map_cons, List.map_nil,
      List.mem_singleton] at h ⊢
    exact h

theorem dictFold_keys_mem {l : List (String × String)} :
    ∀ {m0 : List (String × String)} {k : String},
      k ∈ dictKeys (l.foldl (fun m p => dictInsert m p.1 p.2) m0) →
      k ∈ dictKeys m0 ∨ k ∈ l.map Prod.fst := by
  induction l with
  | nil => intro m0 k h; exact Or.inl h
  | cons p ps ih =>
    intro m0 k h
    rcases ih h with h2 | h2
    · rcases dictInsert_keys_mem h2 with h3 | h3
      · exact Or.inl h3
      · exact Or.inr (by simp [h3])
    · exact Or.inr (List.mem_cons_of_mem _ h2)

/-! ## Claims -/

/-- **C8** (code_bug evidence): the dborbit statement splitter emits the
empty string, both as the final flush at end of input (on `"x;\n  \n"`)
and on a delimiter-change flush (on `"\nDELIMITER $$\n"`), contradicting
the spec's rule that an empty statement after trimming is never
emitted. -/
theorem statements_emits_empty_string :
    Dborbit.statements "x;\n  \n" = ["x", ""] ∧
    Dborbit.statements "\nDELIMITER $$\n" = [""] := by
  exact ⟨by decide, by decide⟩

/-- **C5** (counterexample): the dborbit live-schema reader
`db_schema_map` performs no exclusion, so with the applied-hash tracking
table `_dborbit_schema_applied` present in the database (the CLI creates
it before diffing), the table appears in the returned snapshot. -/
theorem db_schema_map_contains_tracking_table :
    "_dborbit_schema_applied" ∈ dictKeys
      (Dborbit.db_schema_map ["_dborbit_schema_applied", "users"]
        (fun _ => "CREATE TABLE x (id INT)") (fun _ => "h")) := by
  decide

/-- **C5** (amended): the dbtool live-schema reader `_current_schema`
filters its table listing through `IGNORED_TABLES`, so the schema-history
table never appears in its snapshot, for every database state; the
dborbit reader `db_schema_map` performs no such exclusion (see the
counterexample). -/
theorem current_schema_excludes_history_table (rows : List String)
    (showCreate : String → String) :
    Dbtool.SCHEMA_HISTORY_TABLE ∉ dictKeys (Dbtool.current_schema rows showCreate) := by
  intro h
  unfold Dbtool.current_schema at h
  rcases dictFold_keys_mem h with h2 | h2
  · simp [dictKeys] at h2
  · have h3 : Dbtool.SCHEMA_HISTORY_TABLE ∈
        rows.filter (fun r => ¬ Dbtool.IGNORED_TABLES.contains r) := by
      simpa using h2
    rw [List.mem_filter] at h3
    simp [Dbtool.IGNORED_TABLES] at h3

/-- **C4**: when a migration file's SQL contains the keyword `DROP`
(`\bDROP\b`, case-insensitive) and destructive operations are not
allowed, `_apply_single` raises the file-specific error after only the
"Applying" print: no statement of the file reaches the session and no
history row is recorded for it, on dry and real runs alike. -/
theorem apply_single_blocks_destructive (split : String → List String)
    (mf : Dbtool.MigrationFile) (dry_run repeatable : Bool)
    (h : Dbtool.dropFound mf.sql = true) :
    Dbtool.apply_single split mf dry_run false repeatable =
      ([Dbtool.Event.printed ((if dry_run then "(DRY) " else "") ++ "Applying " ++ mf.name)],
       some (mf.name ++ " contains DROP statements – re‑run with --allow-destructive to proceed.")) ∧
    (Dbtool.apply_single split mf dry_run false repeatable).1.all
      (fun e => !e.isExecuted && !e.isRecorded) = true := by
  unfold Dbtool.apply_single
  simp [h, Dbtool.Event.isExecuted, Dbtool.Event.isRecorded]

/-- Witness for `apply_single_blocks_destructive` at a concrete file whose
SQL contains a `DROP` statement. -/
theorem apply_single_blocks_destructive_witness :
    Dbtool.apply_single (fun s => [s])
        ⟨'V', "1", "x", "V1__x.sql", "DROP TABLE t;", "sha"⟩ false false false =
      ([Dbtool.Event.printed ((if false then "(DRY) " else "") ++ "Applying " ++ "V1__x.sql")],
       some ("V1__x.sql" ++ " contains DROP statements – re‑run with --allow-destructive to proceed.")) ∧
    (Dbtool.apply_single (fun s => [s])
        ⟨'V', "1", "x", "V1__x.sql", "DROP TABLE t;", "sha"⟩ false false false).1.all
      (fun e => !e.isExecuted && !e.isRecorded) = true :=
  apply_single_blocks_destructive (fun s => [s])
    ⟨'V', "1", "x", "V1__x.sql", "DROP TABLE t;", "sha"⟩ false false (by decide)

/-- **C9**: with `dry_run=true`, `_apply_single` executes no statement
against the session and records no history row; unless the
destructive-DROP guard trips first (it is evaluated before the dry-run
short-circuit), the file's text is only printed. -/
theorem apply_single_dry_run_frame (split : String → List String)
    (mf : Dbtool.MigrationFile) (allow_destructive repeatable : Bool) :
    (Dbtool.apply_single split mf true allow_destructive repeatable).1.all
      (fun e => !e.isExecuted && !e.isRecorded) = true ∧
    (if !allow_destructive && Dbtool.dropFound mf.sql then
      (Dbtool.apply_single split mf true allow_destructive repeatable).2.isSome = true
     else
      Dbtool.apply_single split mf true allow_destructive repeatable =
        ([Dbtool.Event.printed ((if true then "(DRY) " else "") ++ "Applying " ++ mf.name),
          Dbtool.Event.printed mf.sql], none)) := by
  unfold Dbtool.apply_single
  by_cases h : (!allow_destructive && Dbtool.dropFound mf.sql) <;>
    simp [h, Dbtool.Event.isExecuted, Dbtool.Event.isRecorded]

/-- **C10**: a missing migrations directory yields the empty discovery
result rather than an error, and a file name that does not match the
versioned/repeatable pattern is silently excluded from the result. -/
theorem discover_missing_dir_and_skips_invalid (listing : List String)
    (content sha : String → String) (n : String)
    (hn : Dbtool.migParse n = none) :
    Dbtool.discover false listing content sha = [] ∧
    ∀ mf ∈ Dbtool.discover true listing content sha, mf.name ≠ n := by
  constructor
  · simp [Dbtool.discover]
  · intro mf hmf
    unfold Dbtool.discover at hmf
    simp only [not_true_eq_false, if_neg, ite_false, not_false_eq_true, if_true] at hmf
    have hmem := (List.perm_insertionSort Dbtool.migLe _).mem_iff.mp hmf
    rw [List.mem_filterMap] at hmem
    obtain ⟨x, _, hx⟩ := hmem
    split at hx
    · rw [Option.map_eq_some'] at hx
      obtain ⟨p, hp, he⟩ := hx
      intro hne
      have : mf.name = x := by rw [← he]
      rw [this] at hne
      rw [hne] at hp
      rw [hn] at hp
      exact absurd hp (by simp)
    · exact absurd hx (by simp)

/-- Witness for `discover_missing_dir_and_skips_invalid` on a listing
containing only the non-matching name `foo.sql`. -/
theorem discover_missing_dir_and_skips_invalid_witness :
    Dbtool.discover false ["foo.sql"] (fun _ => "") (fun _ => "") = [] ∧
    ∀ mf ∈ Dbtool.discover true ["foo.sql"] (fun _ => "") (fun _ => ""),
      mf.name ≠ "foo.sql" :=
  discover_missing_dir_and_skips_invalid ["foo.sql"] (fun _ => "") (fun _ => "")
    "foo.sql" (by decide)

/-- Membership is preserved by the insertion sort. -/
theorem mem_insertionSort {α : Type} (r : α → α → Prop) [DecidableRel r]
    (l : List α) (t : α) : t ∈ List.insertionSort r l ↔ t ∈ l :=
  (List.perm_insertionSort r l).mem_iff

/-- **C1**: dborbit `schema_diff` classifies table identifiers into
exactly the three claimed categories — `new` (= created) is the desired
identifiers absent from the live map, `missing` (= removed) is the live
identifiers absent from the desired map, `altered` is the common
identifiers whose fingerprints differ — and the categories are pairwise
disjoint with their union inside the union of the two key sets. -/
theorem schema_diff_partitions (file_map db_map : List (String × String)) :
    ((Dborbit.schema_diff file_map db_map).1.toFinset =
      (dictKeys file_map).toFinset \ (dictKeys db_map).toFinset) ∧
    ((Dborbit.schema_diff file_map db_map).2.1.toFinset =
      (dictKeys db_map).toFinset \ (dictKeys file_map).toFinset) ∧
    ((Dborbit.schema_diff file_map db_map).2.2.toFinset =
      ((dictKeys file_map).toFinset ∩ (dictKeys db_map).toFinset).filter
        (fun t => file_map.lookup t ≠ db_map.lookup t)) ∧
    Disjoint (Dborbit.schema_diff file_map db_map).1.toFinset
      (Dborbit.schema_diff file_map db_map).2.1.toFinset ∧
    Disjoint (Dborbit.schema_diff file_map db_map).1.toFinset
      (Dborbit.schema_diff file_map db_map).2.2.toFinset ∧
    Disjoint (Dborbit.schema_diff file_map db_map).2.1.toFinset
      (Dborbit.schema_diff file_map db_map).2.2.toFinset ∧
    (Dborbit.schema_diff file_map db_map).1.toFinset ∪
      (Dborbit.schema_diff file_map db_map).2.1.toFinset ∪
      (Dborbit.schema_diff file_map db_map).2.2.toFinset ⊆
      (dictKeys file_map).toFinset ∪ (dictKeys db_map).toFinset := by
  have h1 : (Dborbit.schema_diff file_map db_map).1.toFinset =
      (dictKeys file_map).toFinset \ (dictKeys db_map).toFinset := by
    ext t
    simp [Dborbit.schema_diff, mem_insertionSort]
  have h2 : (Dborbit.schema_diff file_map db_map).2.1.toFinset =
      (dictKeys db_map).toFinset \ (dictKeys file_map).toFinset := by
    ext t
    simp [Dborbit.schema_diff, mem_insertionSort]
  have h3 : (Dborbit.schema_diff file_map db_map).2.2.toFinset =
      ((dictKeys file_map).toFinset ∩ (dictKeys db_map).toFinset).filter
        (fun t => file_map.lookup t ≠ db_map.lookup t) := by
    ext t
    simp [Dborbit.schema_diff, mem_insertionSort, and_assoc]
  refine ⟨h1, h2, h3, ?_, ?_, ?_, ?_⟩
  · rw [h1, h2]
    exact disjoint_sdiff_sdiff
  · rw [h1, h3]
    exact (Finset.sdiff_disjoint.mono_right
      ((Finset.filter_subset _ _).trans Finset.inter_subset_right)).symm.symm
  · rw [h2, h3]
    exact (Finset.sdiff_disjoint.mono_right
      ((Finset.filter_subset _ _).trans Finset.inter_subset_left)).symm.symm
  · rw [h1, h2, h3]
    refine Finset.union_subset (Finset.union_subset ?_ ?_) ?_
    · exact Finset.sdiff_subset.trans Finset.subset_union_left
    · exact Finset.sdiff_subset.trans Finset.subset_union_right
    · exact ((Finset.filter_subset _ _).trans Finset.inter_subset_left).trans
        Finset.subset_union_left

/-- **C7** (counterexample): dbtool `diff` applies no sorting within a
category.  With the desired map holding `b` before `a` and an empty live
map — CPython set iteration order is unspecified, modelled here by the
`setIter` parameter, instantiated with one legitimate enumeration of the
key set — the two created statements are emitted with `b` before `a`,
not in ascending identifier order. -/
theorem dbtool_diff_not_sorted :
    Dbtool.diff id (fun _ _ => []) []
        [("b", "CREATE TABLE `b` (x INT);"), ("a", "CREATE TABLE `a` (x INT);")] false =
      ["CREATE TABLE `b` (x INT);", "CREATE TABLE `a` (x INT);"] ∧
    ¬ List.Sorted (· ≤ ·) ["b", "a"] := by
  refine ⟨by decide, ?_⟩
  intro h
  have := List.rel_of_sorted_cons h "a" (by simp)
  exact absurd this (by rw [not_le, String.lt_iff_toList_lt]; decide)

/-- **C7** (amended): dborbit `schema_diff` emits each of its three
categories in ascending lexicographic identifier order (hence two runs on
the same inputs produce identical sequences); dbtool `diff` emits
categories in set-iteration order with no sorting applied (see the
counterexample). -/
theorem schema_diff_sorted_categories (file_map db_map : List (String × String)) :
    List.Sorted (· ≤ ·) (Dborbit.schema_diff file_map db_map).1 ∧
    List.Sorted (· ≤ ·) (Dborbit.schema_diff file_map db_map).2.1 ∧
    List.Sorted (· ≤ ·) (Dborbit.schema_diff file_map db_map).2.2 :=
  ⟨List.sorted_insertionSort _ _, List.sorted_insertionSort _ _,
    List.sorted_insertionSort _ _⟩

/-- Two strings with different first characters differ. -/
theorem ne_of_data_head {s u : String} (h : s.data.head? ≠ u.data.head?) : s ≠ u :=
  fun he => h (by rw [he])

/-- **C3**: for every pair of schema dicts and every removed table `t`
(live-only, and its DROP statement is not itself among the desired
definitions, which are creation statements), `allow_destructive=false`
yields no executable `DROP TABLE` statement for `t` — only the
comment-prefixed advisory naming it — while `allow_destructive=true`
yields the executable `DROP TABLE` statement; `setIter` may be any
enumeration of the computed key sets. -/
theorem diff_gates_destructive_drops
    (setIter : List String → List String) (udiff : String → String → List String)
    (current desired : List (String × String)) (t : String)
    (hIter : ∀ l, List.Perm (setIter l) l)
    (hlive : t ∈ dictKeys current) (hnotdes : t ∉ dictKeys desired)
    (hnod : "DROP TABLE `" ++ t ++ "`;" ∉ desired.map Prod.snd) :
    ("DROP TABLE `" ++ t ++ "`;" ∉ Dbtool.diff setIter udiff current desired false) ∧
    (("-- !!! would execute `" ++ ("DROP TABLE `" ++ t ++ "`;") ++ "` (destructive)") ∈
        Dbtool.diff setIter udiff current desired false) ∧
    ("DROP TABLE `" ++ t ++ "`;" ∈ Dbtool.diff setIter udiff current desired true) := by
  have hrem : t ∈ setIter
      ((dictKeys current).dedup.filter (fun u => ¬ (dictKeys desired).contains u)) := by
    rw [(hIter _).mem_iff, List.mem_filter]
    refine ⟨List.mem_dedup.mpr hlive, ?_⟩
    simpa using hnotdes
  refine ⟨?_, ?_, ?_⟩
  · intro hmem
    unfold Dbtool.diff at hmem
    rw [List.mem_append, List.mem_append] at hmem
    rcases hmem with (hc | hr) | ha
    · rw [List.mem_map] at hc
      obtain ⟨u, _, he⟩ := hc
      cases hl : desired.lookup u with
      | some v =>
        rw [hl, Option.getD_some] at he
        exact hnod (he ▸ List.mem_map_of_mem Prod.snd (lookup_some_mem hl))
      | none =>
        rw [hl, Option.getD_none] at he
        exact ne_of_data_head (s := "") (by simp) he
    · rw [List.mem_map] at hr
      obtain ⟨u, _, he⟩ := hr
      simp only [Bool.false_eq_true, if_false] at he
      exact ne_of_data_head (s := "-- !!! would execute `" ++ ("DROP TABLE `" ++ u ++ "`;")
        ++ "` (destructive)") (by simp) he
    · rw [List.mem_flatMap] at ha
      obtain ⟨u, _, he⟩ := ha
      split at he
      · rw [List.mem_append, List.mem_append] at he
        rcases he with (he | he) | he
        · rw [List.mem_singleton] at he
          exact ne_of_data_head (s := "-- diff for table `" ++ u ++ "`")
            (u := "DROP TABLE `" ++ t ++ "`;") (by simp) he.symm
        · rw [List.mem_map] at he
          obtain ⟨ln, _, he⟩ := he
          exact ne_of_data_head (s := "-- " ++ ln) (by simp) he
        · rw [List.mem_singleton] at he
          exact ne_of_data_head (s := "-- manual ALTER required for `" ++ u ++ "`")
            (u := "DROP TABLE `" ++ t ++ "`;") (by simp) he.symm
      · exact absurd he (by simp)
  · unfold Dbtool.diff
    rw [List.mem_append, List.mem_append]
    left; right
    rw [List.mem_map]
    exact ⟨t, hrem, by simp⟩
  · unfold Dbtool.diff
    rw [List.mem_append, List.mem_append]
    left; right
    rw [List.mem_map]
    exact ⟨t, hrem, by simp⟩

/-- Witness for `diff_gates_destructive_drops` at a concrete live-only
table `a`. -/
theorem diff_gates_destructive_drops_witness :
    ("DROP TABLE `" ++ "a" ++ "`;" ∉
        Dbtool.diff id (fun _ _ => []) [("a", "CREATE TABLE `a` (x INT);")] [] false) ∧
    (("-- !!! would execute `" ++ ("DROP TABLE `" ++ "a" ++ "`;") ++ "` (destructive)") ∈
        Dbtool.diff id (fun _ _ => []) [("a", "CREATE TABLE `a` (x INT);")] [] false) ∧
    ("DROP TABLE `" ++ "a" ++ "`;" ∈
        Dbtool.diff id (fun _ _ => []) [("a", "CREATE TABLE `a` (x INT);")] [] true) :=
  diff_gates_destructive_drops id (fun _ _ => []) [("a", "CREATE TABLE `a` (x INT);")] []
    "a" (fun l => List.Perm.refl l) (by decide) (by decide) (by decide)

/-- The history rows one `_apply_single` call records: none (error or dry
run), or exactly one, with a null version for a repeatable file. -/
theorem apply_single_recordedVersions (split : String → List String)
    (mf : Dbtool.MigrationFile) (d ad r : Bool) :
    Dbtool.recordedVersions (Dbtool.apply_single split mf d ad r).1 = [] ∨
    Dbtool.recordedVersions (Dbtool.apply_single split mf d ad r).1 =
      [if r then none else some mf.version] := by
  unfold Dbtool.apply_single Dbtool.recordedVersions
  by_cases h : (!ad && Dbtool.dropFound mf.sql) <;> by_cases hd : d <;>
    simp [h, hd, List.filterMap_append, List.filterMap_map]

/-- The versioned loop records only versioned rows, in an order that is a
sublist of the discovery order of the non-repeatable files. -/
theorem migrateLoop1_versions_sublist (split : String → List String)
    (applied : List String) (d : Bool) (t : Option String) (ad : Bool) :
    ∀ files : List Dbtool.MigrationFile,
      (Dbtool.recordedVersions
          (Dbtool.migrateLoop1 split applied d t ad files).1).Sublist
        ((files.filter (fun f => !f.repeatable)).map (fun f => some f.version)) := by
  intro files
  induction files with
  | nil => simp [Dbtool.migrateLoop1, Dbtool.recordedVersions]
  | cons mf rest ih =>
    rw [Dbtool.migrateLoop1, List.filter_cons]
    by_cases hrep : mf.repeatable
    · simp only [hrep, if_true, Bool.not_true, Bool.false_eq_true, if_false]
      exact ih
    · simp only [hrep, Bool.false_eq_true, if_false, Bool.not_false, if_true, List.map_cons]
      by_cases htgt : Dbtool.targetStops t mf.version
      · simp only [htgt, if_true]
        simp [Dbtool.recordedVersions]
      · simp only [htgt, Bool.false_eq_true, if_false]
        by_cases happ : applied.contains mf.version
        · simp only [happ, if_true]
          exact ih.cons _
        · simp only [happ, Bool.false_eq_true, if_false]
          rcases hap : Dbtool.apply_single split mf d ad false with ⟨evs, err⟩
          have hv := apply_single_recordedVersions split mf d ad false
          rw [hap] at hv
          simp only [Bool.false_eq_true, if_false] at hv
          cases err with
          | some e =>
            simp only
            rcases hv with hv | hv <;> rw [hv]
            · exact List.nil_sublist _
            · exact (List.nil_sublist _).cons₂ _
          | none =>
            simp only [Dbtool.recordedVersions, List.filterMap_append]
            rcases hv with hv | hv <;>
              rw [Dbtool.recordedVersions] at hv <;> rw [hv]
            · exact ih.cons _
            · simpa using ih.cons₂ (some mf.version)

/-- The repeatable loop records only rows with a null version. -/
theorem migrateLoop2_versions_none (split : String → List String) (d ad : Bool) :
    ∀ files : List Dbtool.MigrationFile,
      ∀ v ∈ Dbtool.recordedVersions (Dbtool.migrateLoop2 split d ad files).1, v = none := by
  intro files
  induction files with
  | nil => simp [Dbtool.migrateLoop2, Dbtool.recordedVersions]
  | cons mf rest ih =>
    rw [Dbtool.migrateLoop2]
    by_cases hrep : mf.repeatable
    · simp only [hrep, if_true]
      rcases hap : Dbtool.apply_single split mf d ad true with ⟨evs, err⟩
      have hv := apply_single_recordedVersions split mf d ad true
      rw [hap] at hv
      simp only [if_true] at hv
      cases err with
      | some e =>
        simp only
        intro v hvm
        rcases hv with hv | hv <;> rw [hv] at hvm
        · simp at hvm
        · simpa using hvm
      | none =>
        simp only [Dbtool.recordedVersions, List.filterMap_append]
        intro v hvm
        rw [List.mem_append] at hvm
        rcases hvm with hvm | hvm
        · rcases hv with hv | hv <;> rw [Dbtool.recordedVersions] at hv <;> rw [hv] at hvm
          · simp at hvm
          · simpa using hvm
        · exact ih v hvm
    · simp only [hrep, Bool.false_eq_true, if_false]
      exact ih

/-- `discover` returns a list sorted by `ordering_key`. -/
theorem discover_sorted (dirExists : Bool) (listing : List String)
    (content sha : String → String) :
    List.Sorted Dbtool.migLe (Dbtool.discover dirExists listing content sha) := by
  unfold Dbtool.discover
  split
  · exact List.sorted_nil
  · exact List.sorted_insertionSort _ _

/-- Non-repeatable files pairwise ordered by `migLe` have versions
pairwise ordered by `≤`. -/
theorem pairwise_versions : ∀ (l : List Dbtool.MigrationFile),
    List.Pairwise Dbtool.migLe l → (∀ a ∈ l, a.repeatable = false) →
    List.Pairwise (· ≤ ·) (l.map (fun f => f.version)) := by
  intro l
  induction l with
  | nil => intro _ _; exact List.Pairwise.nil
  | cons a as ih =>
    intro hp hall
    rw [List.pairwise_cons] at hp
    rw [List.map_cons, List.pairwise_cons]
    constructor
    · intro v hv
      rw [List.mem_map] at hv
      obtain ⟨b, hb, he⟩ := hv
      have hr := hp.1 b hb
      have hra := hall a (List.mem_cons_self _ _)
      have hrb := hall b (List.mem_cons_of_mem _ hb)
      unfold Dbtool.migLe Dbtool.keyLe Dbtool.MigrationFile.ordering_key at hr
      rw [hra, hrb] at hr
      simp at hr
      rw [← he]
      exact String.le_iff_toList_le.mpr hr
    · exact ih hp.2 (fun x hx => hall x (List.mem_cons_of_mem _ hx))

/-- In a `migLe`-sorted file list, the versions of the non-repeatable
files are in ascending string order. -/
theorem sorted_versions_of_sorted_files (files : List Dbtool.MigrationFile)
    (h : List.Sorted Dbtool.migLe files) :
    List.Sorted (· ≤ ·)
      ((files.filter (fun f => !f.repeatable)).map (fun f => f.version)) := by
  refine pairwise_versions _ (h.filter _) ?_
  intro a ha
  have := (List.mem_filter.mp ha).2
  simpa using this

/-- The trace of `migrate` splits into the versioned loop's rows followed
by the repeatable loop's rows. -/
theorem migrate_versions_decompose (split : String → List String)
    (files : List Dbtool.MigrationFile) (applied : List String) (d : Bool)
    (t : Option String) (ad : Bool) :
    ∃ v1 v2,
      Dbtool.recordedVersions (Dbtool.migrate split files applied d t ad).1 = v1 ++ v2 ∧
      v1.Sublist ((files.filter (fun f => !f.repeatable)).map (fun f => some f.version)) ∧
      (∀ v ∈ v2, v = none) := by
  unfold Dbtool.migrate
  rcases hl1 : Dbtool.migrateLoop1 split applied d t ad files with ⟨e1, err⟩
  have hs := migrateLoop1_versions_sublist split applied d t ad files
  rw [hl1] at hs
  cases err with
  | some e =>
    exact ⟨Dbtool.recordedVersions e1, [], by simp, hs, by simp⟩
  | none =>
    refine ⟨Dbtool.recordedVersions e1,
      Dbtool.recordedVersions (Dbtool.migrateLoop2 split d ad files).1, ?_, hs, ?_⟩
    · simp [Dbtool.recordedVersions, List.filterMap_append]
    · exact migrateLoop2_versions_none split d ad files

/-- **C2** (amended): `migrate` applies every versioned file before any
repeatable file (the history rows with non-null versions all precede the
null-version rows, on every run over discovered files), and the versioned
rows carry versions in ascending lexicographic string order — so the
files V1__init.sql, V10__add_col.sql, V2__add_index.sql, all pending,
apply in the order V1, V10, V2. -/
theorem migrate_versioned_order (split : String → List String) (listing : List String)
    (content sha : String → String) (applied : List String) (dry_run : Bool)
    (target : Option String) (allow_destructive : Bool) :
    (Dbtool.recordedVersions (Dbtool.migrate split
        (Dbtool.discover true listing content sha) applied dry_run target
        allow_destructive).1 =
      (Dbtool.recordedVersions (Dbtool.migrate split
        (Dbtool.discover true listing content sha) applied dry_run target
        allow_destructive).1).filter Option.isSome ++
      (Dbtool.recordedVersions (Dbtool.migrate split
        (Dbtool.discover true listing content sha) applied dry_run target
        allow_destructive).1).filter Option.isNone) ∧
    List.Sorted (· ≤ ·) ((Dbtool.recordedVersions (Dbtool.migrate split
        (Dbtool.discover true listing content sha) applied dry_run target
        allow_destructive).1).filterMap id) ∧
    Dbtool.recordedScripts (Dbtool.migrate (fun s => [s])
        (Dbtool.discover true ["V1__init.sql", "V10__add_col.sql", "V2__add_index.sql"]
          (fun _ => "CREATE TABLE a (id INT);") (fun _ => "sha")) [] false none false).1 =
      ["V1__init.sql", "V10__add_col.sql", "V2__add_index.sql"] := by
  obtain ⟨v1, v2, heq, hsub, hnone⟩ := migrate_versions_decompose split
    (Dbtool.discover true listing content sha) applied dry_run target allow_destructive
  have hsome : ∀ v ∈ v1, v.isSome = true := by
    intro v hv
    have hm := hsub.subset hv
    rw [List.mem_map] at hm
    obtain ⟨f, _, he⟩ := hm
    rw [← he]
    rfl
  refine ⟨?_, ?_, by decide⟩
  · rw [heq, List.filter_append, List.filter_append]
    have h1 : v1.filter Option.isSome = v1 := List.filter_eq_self.mpr hsome
    have h2 : v2.filter Option.isSome = [] := by
      rw [List.filter_eq_nil_iff]
      intro v hv
      rw [hnone v hv]
      simp
    have h3 : v1.filter Option.isNone = [] := by
      rw [List.filter_eq_nil_iff]
      intro v hv
      have := hsome v hv
      cases v with
      | none => simp at this
      | some w => simp
    have h4 : v2.filter Option.isNone = v2 :=
      List.filter_eq_self.mpr (fun v hv => by rw [hnone v hv]; rfl)
    rw [h1, h2, h3, h4, List.append_nil, List.nil_append]
  · rw [heq, List.filterMap_append]
    have h5 : v2.filterMap id = [] :=
      List.filterMap_eq_nil_iff.mpr (fun v hv => by rw [hnone v hv]; rfl)
    rw [h5, List.append_nil]
    have h7 : (((Dbtool.discover true listing content sha).filter
          (fun f => !f.repeatable)).map (fun f => some f.version)).filterMap id =
        ((Dbtool.discover true listing content sha).filter
          (fun f => !f.repeatable)).map (fun f => f.version) := by
      simp
      exact congrFun (List.filterMap_eq_map _) _
    have h6 := hsub.filterMap id
    rw [h7] at h6
    exact List.Pairwise.sublist h6
      (sorted_versions_of_sorted_files _ (discover_sorted true listing content sha))

/-- **C2** (counterexample): with V1__init.sql, V10__add_col.sql and
V2__add_index.sql all discovered and none yet applied, `migrate` records
them in lexicographic version-string order V1, V10, V2 — not in the
claimed order V1, V2, V10. -/
theorem migrate_lexicographic_not_numeric :
    Dbtool.recordedScripts (Dbtool.migrate (fun s => [s])
        (Dbtool.discover true ["V1__init.sql", "V10__add_col.sql", "V2__add_index.sql"]
          (fun _ => "CREATE TABLE a (id INT);") (fun _ => "sha")) [] false none false).1 =
      ["V1__init.sql", "V10__add_col.sql", "V2__add_index.sql"] ∧
    Dbtool.recordedScripts (Dbtool.migrate (fun s => [s])
        (Dbtool.discover true ["V1__init.sql", "V10__add_col.sql", "V2__add_index.sql"]
          (fun _ => "CREATE TABLE a (id INT);") (fun _ => "sha")) [] false none false).1 ≠
      ["V1__init.sql", "V2__add_index.sql", "V10__add_col.sql"] :=
  ⟨by decide, by decide⟩

/-! ## Cosmetic invariance of the normalizer (claim C6)

The remaining development proves that `normalize` is invariant under the
cosmetic differences named by the spec: letter case, whitespace-run
contents, presence of an `IF NOT EXISTS` clause, and the numeric value of
an `AUTO_INCREMENT=<n>` assignment. -/

theorem uint32_le_iff (a b : UInt32) : a ≤ b ↔ a.toNat ≤ b.toNat := by
  rw [UInt32.le_def]
  exact BitVec.le_def

theorem char_eq_iff (a b : Char) : a = b ↔ a.toNat = b.toNat := by
  rw [Char.ext_iff]
  exact UInt32.ext_iff

theorem charToNatOfNat (n : Nat) (h : n < 55296) : (Char.ofNat n).toNat = n := by
  unfold Char.ofNat
  rw [dif_pos]
  · rfl
  · exact Or.inl h

theorem toLower_toNat (c : Char) :
    c.toLower.toNat = if 65 ≤ c.toNat ∧ c.toNat ≤ 90 then c.toNat + 32 else c.toNat := by
  unfold Char.toLower
  split
  · rename_i h
    rw [if_pos ⟨h.1, h.2⟩]
    exact charToNatOfNat _ (by omega)
  · rename_i h
    rw [if_neg]
    intro h2
    exact h ⟨h2.1, h2.2⟩

theorem toLower_idem (c : Char) : c.toLower.toLower = c.toLower := by
  rw [char_eq_iff, toLower_toNat c.toLower, toLower_toNat c]
  split_ifs <;> omega

theorem isPyWs_iff (c : Char) : isPyWs c = true ↔
    (c.toNat = 32 ∨ c.toNat = 9 ∨ c.toNat = 10 ∨ c.toNat = 13 ∨
     c.toNat = 11 ∨ c.toNat = 12) := by
  have e1 : (' ' : Char).toNat = 32 := rfl
  have e2 : ('\t' : Char).toNat = 9 := rfl
  have e3 : ('\n' : Char).toNat = 10 := rfl
  have e4 : ('\r' : Char).toNat = 13 := rfl
  have e5 : ('\x0b' : Char).toNat = 11 := rfl
  have e6 : ('\x0c' : Char).toNat = 12 := rfl
  unfold isPyWs
  simp only [Bool.or_eq_true, decide_eq_true_eq, char_eq_iff, e1, e2, e3, e4, e5, e6]
  tauto

theorem isDigit_iff (c : Char) : c.isDigit = true ↔ (48 ≤ c.toNat ∧ c.toNat ≤ 57) := by
  unfold Char.isDigit
  have e1 : (('0' : Char).val).toNat = 48 := rfl
  have e2 : (('9' : Char).val).toNat = 57 := rfl
  simp only [Bool.and_eq_true, decide_eq_true_eq, ge_iff_le, uint32_le_iff, e1, e2]
  exact Iff.rfl

theorem isWordChar_iff (c : Char) : isWordChar c = true ↔
    ((65 ≤ c.toNat ∧ c.toNat ≤ 90) ∨ (97 ≤ c.toNat ∧ c.toNat ≤ 122) ∨
     (48 ≤ c.toNat ∧ c.toNat ≤ 57) ∨ c.toNat = 95) := by
  unfold isWordChar Char.isAlpha Char.isUpper Char.isLower
  have e1 : ((65 : UInt32)).toNat = 65 := rfl
  have e2 : ((90 : UInt32)).toNat = 90 := rfl
  have e3 : ((97 : UInt32)).toNat = 97 := rfl
  have e4 : ((122 : UInt32)).toNat = 122 := rfl
  have e5 : c.val.toNat = c.toNat := rfl
  have e6 : ('_' : Char).toNat = 95 := rfl
  simp only [Bool.or_eq_true, Bool.and_eq_true, decide_eq_true_eq, ge_iff_le,
    uint32_le_iff, e1, e2, e3, e4, e5, e6, char_eq_iff, isDigit_iff]
  tauto

theorem toLower_eq_self (c : Char) (h : ¬ (65 ≤ c.toNat ∧ c.toNat ≤ 90)) :
    c.toLower = c := by
  have h3 := toLower_toNat c
  rw [if_neg h] at h3
  exact (char_eq_iff _ _).mpr h3

theorem toLower_toNat_upper (c : Char) (h : 65 ≤ c.toNat ∧ c.toNat ≤ 90) :
    c.toLower.toNat = c.toNat + 32 := by
  rw [toLower_toNat, if_pos h]

theorem isPyWs_toLower (c : Char) : isPyWs c.toLower = isPyWs c := by
  by_cases h : 65 ≤ c.toNat ∧ c.toNat ≤ 90
  · have h3 := toLower_toNat_upper c h
    have hL : isPyWs c.toLower = false := by
      by_contra hcon
      rw [Bool.not_eq_false] at hcon
      have := (isPyWs_iff _).mp hcon
      omega
    have hR : isPyWs c = false := by
      by_contra hcon
      rw [Bool.not_eq_false] at hcon
      have := (isPyWs_iff _).mp hcon
      omega
    rw [hL, hR]
  · rw [toLower_eq_self c h]

theorem isWordChar_toLower (c : Char) : isWordChar c.toLower = isWordChar c := by
  by_cases h : 65 ≤ c.toNat ∧ c.toNat ≤ 90
  · have h3 := toLower_toNat_upper c h
    have hL : isWordChar c.toLower = true :=
      (isWordChar_iff _).mpr (Or.inr (Or.inl (by omega)))
    have hR : isWordChar c = true := (isWordChar_iff _).mpr (Or.inl h)
    rw [hL, hR]
  · rw [toLower_eq_self c h]

theorem isDigit_toLower (c : Char) : c.toLower.isDigit = c.isDigit := by
  by_cases h : 65 ≤ c.toNat ∧ c.toNat ≤ 90
  · have h3 := toLower_toNat_upper c h
    have hL : c.toLower.isDigit = false := by
      by_contra hcon
      rw [Bool.not_eq_false] at hcon
      have := (isDigit_iff _).mp hcon
      omega
    have hR : c.isDigit = false := by
      by_contra hcon
      rw [Bool.not_eq_false] at hcon
      have := (isDigit_iff _).mp hcon
      omega
    rw [hL, hR]
  · rw [toLower_eq_self c h]

theorem dropCI_lower : ∀ (p l : List Char),
    dropCI p (l.map Char.toLower) = (dropCI p l).map (List.map Char.toLower) := by
  intro p
  induction p with
  | nil => intro l; simp [dropCI]
  | cons q ps ih =>
    intro l
    cases l with
    | nil => simp [dropCI]
    | cons c cs =>
      simp only [List.map_cons, dropCI, toLower_idem]
      split <;> simp [ih]

theorem dropWhile_lower (p : Char → Bool) (hp : ∀ c, p c.toLower = p c) (l : List Char) :
    (l.map Char.toLower).dropWhile p = (l.dropWhile p).map Char.toLower := by
  rw [List.dropWhile_map]
  have : (p ∘ Char.toLower) = p := funext hp
  rw [this]

theorem ws1_lower (l : List Char) :
    ws1 (l.map Char.toLower) = (ws1 l).map (List.map Char.toLower) := by
  cases l with
  | nil => rfl
  | cons c cs =>
    simp only [List.map_cons, ws1, isPyWs_toLower]
    split <;> simp [dropWhile_lower isPyWs isPyWs_toLower]

theorem digits1_lower (l : List Char) :
    digits1 (l.map Char.toLower) = (digits1 l).map (List.map Char.toLower) := by
  cases l with
  | nil => rfl
  | cons c cs =>
    simp only [List.map_cons, digits1, isDigit_toLower]
    split <;> simp [dropWhile_lower Char.isDigit isDigit_toLower]

theorem tailBoundary_lower (l : List Char) :
    tailBoundary (l.map Char.toLower) = (tailBoundary l).map (List.map Char.toLower) := by
  cases l with
  | nil => rfl
  | cons c cs =>
    simp only [List.map_cons, tailBoundary, isWordChar_toLower]
    split <;> simp

theorem matchINE_lower (l : List Char) :
    matchINE (l.map Char.toLower) = (matchINE l).map (List.map Char.toLower) := by
  unfold matchINE
  rw [dropCI_lower]
  cases dropCI ("if".toList) l with
  | none => rfl
  | some r1 =>
    simp only [Option.map_some', Option.some_bind]
    rw [ws1_lower]
    cases ws1 r1 with
    | none => rfl
    | some r2 =>
      simp only [Option.map_some', Option.some_bind]
      rw [dropCI_lower]
      cases dropCI ("not".toList) r2 with
      | none => rfl
      | some r3 =>
        simp only [Option.map_some', Option.some_bind]
        rw [ws1_lower]
        cases ws1 r3 with
        | none => rfl
        | some r4 =>
          simp only [Option.map_some', Option.some_bind]
          rw [dropCI_lower]
          cases dropCI ("exists".toList) r4 with
          | none => rfl
          | some r5 =>
            simp only [Option.map_some', Option.some_bind]
            exact tailBoundary_lower r5

theorem matchAI_lower (l : List Char) :
    matchAI (l.map Char.toLower) = (matchAI l).map (List.map Char.toLower) := by
  unfold matchAI
  rw [dropCI_lower]
  cases dropCI ("auto_increment=".toList) l with
  | none => rfl
  | some r1 =>
    simp only [Option.map_some', Option.some_bind]
    rw [digits1_lower]
    cases digits1 r1 with
    | none => rfl
    | some r2 =>
      simp only [Option.map_some', Option.some_bind, Option.map_some']
      rw [dropWhile_lower isPyWs isPyWs_toLower]

theorem p1ine_lower_aux : ∀ (n : Nat) (l : List Char), l.length ≤ n → ∀ (pw : Bool),
    p1ine pw (l.map Char.toLower) = (p1ine pw l).map Char.toLower := by
  intro n
  induction n with
  | zero =>
    intro l h pw
    have : l = [] := List.length_eq_zero.mp (Nat.le_zero.mp h)
    subst this
    simp [p1ine_nil]
  | succ n ih =>
    intro l h pw
    cases l with
    | nil => simp [p1ine_nil]
    | cons c cs =>
      by_cases hpw : pw = true
      · subst hpw
        rw [List.map_cons, p1ine_cons_word, p1ine_cons_word, List.map_cons,
          isWordChar_toLower]
        exact congrArg _ (ih cs (by simp at h; omega) _)
      · rw [Bool.not_eq_true] at hpw
        subst hpw
        cases hm : matchINE (c :: cs) with
        | some rest =>
          have hm2 : matchINE ((c :: cs).map Char.toLower) =
              some (rest.map Char.toLower) := by
            rw [matchINE_lower, hm]
            rfl
          rw [List.map_cons] at hm2
          rw [p1ine_cons_match _ _ _ hm, List.map_cons, p1ine_cons_match _ _ _ hm2]
          exact ih rest (by have := matchINE_length _ _ hm; simp at h this; omega) _
        | none =>
          have hm2 : matchINE ((c :: cs).map Char.toLower) = none := by
            rw [matchINE_lower, hm]
            rfl
          rw [List.map_cons] at hm2
          rw [p1ine_cons_nomatch _ _ hm, List.map_cons, p1ine_cons_nomatch _ _ hm2,
            isWordChar_toLower]
          exact congrArg _ (ih cs (by simp at h; omega) _)

theorem p1ine_lower (pw : Bool) (l : List Char) :
    p1ine pw (l.map Char.toLower) = (p1ine pw l).map Char.toLower :=
  p1ine_lower_aux l.length l (le_refl _) pw

theorem p2ai_lower_aux : ∀ (n : Nat) (l : List Char), l.length ≤ n →
    p2ai (l.map Char.toLower) = (p2ai l).map Char.toLower := by
  intro n
  induction n with
  | zero =>
    intro l h
    have : l = [] := List.length_eq_zero.mp (Nat.le_zero.mp h)
    subst this
    simp [p2ai_nil]
  | succ n ih =>
    intro l h
    cases l with
    | nil => simp [p2ai_nil]
    | cons c cs =>
      cases hm : matchAI (c :: cs) with
      | some rest =>
        have hm2 : matchAI ((c :: cs).map Char.toLower) =
            some (rest.map Char.toLower) := by
          rw [matchAI_lower, hm]
          rfl
        rw [List.map_cons] at hm2
        rw [p2ai_cons_match _ _ _ hm, List.map_cons, p2ai_cons_match _ _ _ hm2]
        exact ih rest (by have := matchAI_length _ _ hm; simp at h this; omega)
      | none =>
        have hm2 : matchAI ((c :: cs).map Char.toLower) = none := by
          rw [matchAI_lower, hm]
          rfl
        rw [List.map_cons] at hm2
        rw [p2ai_cons_nomatch _ _ hm, List.map_cons, p2ai_cons_nomatch _ _ hm2]
        exact congrArg _ (ih cs (by simp at h; omega))

theorem p2ai_lower (l : List Char) :
    p2ai (l.map Char.toLower) = (p2ai l).map Char.toLower :=
  p2ai_lower_aux l.length l (le_refl _)

theorem collapseWs_lower : ∀ (l : List Char),
    collapseWs (l.map Char.toLower) = (collapseWs l).map Char.toLower := by
  intro l
  induction l with
  | nil => rfl
  | cons c cs ih =>
    have hsp : (' ' : Char).toLower = ' ' := rfl
    cases cs with
    | nil =>
      by_cases hws : isPyWs c
      · simp only [List.map_cons, List.map_nil, collapseWs, isPyWs_toLower, hws, if_true,
          hsp]
      · simp only [List.map_cons, List.map_nil, collapseWs, isPyWs_toLower, hws,
          Bool.false_eq_true, if_false]
    | cons d ds =>
      simp only [List.map_cons] at ih ⊢
      by_cases h1 : isPyWs c
      · by_cases h2 : isPyWs d
        · simp only [collapseWs, isPyWs_toLower, h1, h2, Bool.and_self, if_true]
          exact ih
        · simp only [collapseWs, isPyWs_toLower, h1, h2, Bool.and_false,
            Bool.false_eq_true, if_false, if_true, List.map_cons, hsp]
          rw [ih]
      · by_cases h2 : isPyWs d
        · simp only [collapseWs, isPyWs_toLower, h1, h2, Bool.false_and,
            Bool.false_eq_true, if_false, List.map_cons]
          rw [ih]
        · simp only [collapseWs, isPyWs_toLower, h1, h2, Bool.false_and,
            Bool.false_eq_true, if_false, List.map_cons]
          rw [ih]

theorem stripL_lower (l : List Char) :
    stripL (l.map Char.toLower) = (stripL l).map Char.toLower := by
  unfold stripL lstripL rstripL
  rw [dropWhile_lower isPyWs isPyWs_toLower, ← List.map_reverse,
    dropWhile_lower isPyWs isPyWs_toLower, ← List.map_reverse]

/-- The normalizer at the character-list level (`Dborbit.normalize` is
`String.mk` of this applied to the statement's characters). -/
def normalizeL (l : List Char) : List Char :=
  (stripL (collapseWs (p2ai (p1ine false l)))).map Char.toLower

theorem normalize_eq_normalizeL (s : String) :
    Dborbit.normalize s = String.mk (normalizeL s.toList) := rfl

theorem map_toLower_idem (l : List Char) :
    (l.map Char.toLower).map Char.toLower = l.map Char.toLower := by
  rw [List.map_map]
  exact List.map_congr_left (fun c _ => toLower_idem c)

theorem normalizeL_lower (l : List Char) :
    normalizeL (l.map Char.toLower) = normalizeL l := by
  unfold normalizeL
  rw [p1ine_lower, p2ai_lower, collapseWs_lower, stripL_lower, map_toLower_idem]

/-- Does a `\bIF\s+NOT\s+EXISTS\b` match start at some position inside
`u`, scanning `u ++ z` with initial boundary state `pw`? -/
def ineFires : Bool → List Char → List Char → Bool
  | _, [], _ => false
  | pw, c :: cs, z =>
    (!pw && (matchINE (c :: (cs ++ z))).isSome) || ineFires (isWordChar c) cs z

/-- Does an `AUTO_INCREMENT=\d+\s*` match start at some position inside
`u`, scanning `u ++ z`? -/
def aiFires : List Char → List Char → Bool
  | [], _ => false
  | c :: cs, z => (matchAI (c :: (cs ++ z))).isSome || aiFires cs z

/-- The `\b` state after scanning `u` from initial state `pw`. -/
def lastW (pw : Bool) (u : List Char) : Bool :=
  match u.getLast? with
  | some c => isWordChar c
  | none => pw

theorem lastW_nil (pw : Bool) : lastW pw [] = pw := rfl

theorem lastW_cons (pw : Bool) (c : Char) (u : List Char) :
    lastW pw (c :: u) = lastW (isWordChar c) u := by
  cases u with
  | nil => rfl
  | cons d ds =>
    unfold lastW
    rw [List.getLast?_cons_cons]
    cases hg : (d :: ds).getLast? with
    | some e => rfl
    | none => exact absurd (List.getLast?_eq_none_iff.mp hg) (by simp)

theorem not_word_of_ws (c : Char) (h : isPyWs c = true) : isWordChar c = false := by
  have h1 := (isPyWs_iff c).mp h
  by_contra hcon
  rw [Bool.not_eq_false] at hcon
  have := (isWordChar_iff c).mp hcon
  omega

theorem not_digit_of_ws (c : Char) (h : isPyWs c = true) : c.isDigit = false := by
  have h1 := (isPyWs_iff c).mp h
  by_contra hcon
  rw [Bool.not_eq_false] at hcon
  have := (isDigit_iff c).mp hcon
  omega

theorem lastW_ws_end (pw : Bool) (x r : List Char) (hr : r ≠ [])
    (hws : ∀ c ∈ r, isPyWs c = true) : lastW pw (x ++ r) = false := by
  unfold lastW
  rw [List.getLast?_append_of_ne_nil _ hr]
  cases hg : r.getLast? with
  | none => exact absurd (List.getLast?_eq_none_iff.mp hg) hr
  | some c =>
    have hc : c ∈ r := by
      obtain ⟨hne, heq⟩ := List.mem_getLast?_eq_getLast (x := c) (l := r)
        (by rw [Option.mem_def, hg])
      rw [heq]
      exact List.getLast_mem hne
    exact not_word_of_ws c (hws c hc)

/-- The first pass walks over a prefix in which no match starts. -/
theorem p1ine_append_of_not_fires : ∀ (u : List Char) (pw : Bool) (z : List Char),
    ineFires pw u z = false → p1ine pw (u ++ z) = u ++ p1ine (lastW pw u) z := by
  intro u
  induction u with
  | nil => intro pw z _; rfl
  | cons c cs ih =>
    intro pw z h
    rw [ineFires] at h
    rw [Bool.or_eq_false_iff] at h
    obtain ⟨h1, h2⟩ := h
    rw [List.cons_append, lastW_cons]
    by_cases hpw : pw = true
    · subst hpw
      rw [p1ine_cons_word, ih _ _ h2, List.cons_append]
    · rw [Bool.not_eq_true] at hpw
      subst hpw
      simp only [Bool.not_false, Bool.true_and] at h1
      have h1' : matchINE (c :: (cs ++ z)) = none := by
        cases hmm : matchINE (c :: (cs ++ z)) with
        | none => rfl
        | some r => rw [hmm] at h1; simp at h1
      rw [p1ine_cons_nomatch _ _ h1', ih _ _ h2, List.cons_append]

/-- The second pass walks over a prefix in which no match starts. -/
theorem p2ai_append_of_not_fires : ∀ (u z : List Char),
    aiFires u z = false → p2ai (u ++ z) = u ++ p2ai z := by
  intro u
  induction u with
  | nil => intro z _; rfl
  | cons c cs ih =>
    intro z h
    rw [aiFires] at h
    rw [Bool.or_eq_false_iff] at h
    obtain ⟨h1, h2⟩ := h
    have h1' : matchAI (c :: (cs ++ z)) = none := by
      cases hmm : matchAI (c :: (cs ++ z)) with
      | none => rfl
      | some r => rw [hmm] at h1; simp at h1
    rw [List.cons_append, p2ai_cons_nomatch _ _ h1', ih _ h2, List.cons_append]

/-- When no match starts at its head, the first pass is insensitive to the
incoming boundary state. -/
theorem p1ine_true_eq_false (v : List Char) (h : matchINE v = none) :
    p1ine true v = p1ine false v := by
  cases v with
  | nil => rfl
  | cons c cs => rw [p1ine_cons_word, p1ine_cons_nomatch _ _ h]

theorem dropWhile_run (p : Char → Bool) : ∀ (r : List Char),
    (∀ c ∈ r, p c = true) →
    ∀ (t : List Char), (t = [] ∨ ∃ d ds, t = d :: ds ∧ p d = false) →
    (r ++ t).dropWhile p = t := by
  intro r
  induction r with
  | nil =>
    intro _ t ht
    rcases ht with rfl | ⟨d, ds, rfl, hd⟩
    · rfl
    · simp [List.dropWhile_cons, hd]
  | cons c cs ih =>
    intro hr t ht
    rw [List.cons_append, List.dropWhile_cons, hr c (List.mem_cons_self _ _)]
    simp only [if_true]
    exact ih (fun x hx => hr x (List.mem_cons_of_mem _ hx)) t ht

/-- A rendered `IF NOT EXISTS` clause with arbitrary internal whitespace
runs (letter case is covered by the separate case dimension). -/
def ineClause (w1 w2 : List Char) : List Char :=
  'I' :: 'F' :: (w1 ++ ('N' :: 'O' :: 'T' :: (w2 ++ ['E', 'X', 'I', 'S', 'T', 'S'])))

theorem matchINE_clause (w1 w2 v : List Char)
    (h1 : w1 ≠ []) (hw1 : ∀ c ∈ w1, isPyWs c = true)
    (h2 : w2 ≠ []) (hw2 : ∀ c ∈ w2, isPyWs c = true)
    (hv : v = [] ∨ ∃ c cs, v = c :: cs ∧ isWordChar c = false) :
    matchINE (ineClause w1 w2 ++ v) = some v := by
  obtain ⟨a, w1', rfl⟩ := List.exists_cons_of_ne_nil h1
  obtain ⟨b, w2', rfl⟩ := List.exists_cons_of_ne_nil h2
  unfold ineClause matchINE
  simp only [List.cons_append, List.append_assoc, List.nil_append]
  have s1 : ∀ T : List Char, dropCI ("if".toList) ('I' :: 'F' :: T) = some T :=
    fun T => rfl
  rw [s1]
  simp only [Option.some_bind]
  have s2 : ws1 (a :: (w1' ++ 'N' :: 'O' :: 'T' ::
      b :: (w2' ++ 'E' :: 'X' :: 'I' :: 'S' :: 'T' :: 'S' :: v))) =
      some ('N' :: 'O' :: 'T' :: b :: (w2' ++ 'E' :: 'X' :: 'I' :: 'S' :: 'T' :: 'S' :: v)) := by
    show (if isPyWs a then some ((w1' ++ _).dropWhile isPyWs) else none) = _
    rw [if_pos (hw1 a (List.mem_cons_self _ _))]
    rw [dropWhile_run isPyWs w1' (fun c hc => hw1 c (List.mem_cons_of_mem _ hc)) _
      (Or.inr ⟨'N', _, rfl, by decide⟩)]
  rw [s2]
  simp only [Option.some_bind]
  have s3 : ∀ T : List Char, dropCI ("not".toList) ('N' :: 'O' :: 'T' :: T) = some T :=
    fun T => rfl
  rw [s3]
  simp only [Option.some_bind]
  have s4 : ws1 (b :: (w2' ++ 'E' :: 'X' :: 'I' :: 'S' :: 'T' :: 'S' :: v)) =
      some ('E' :: 'X' :: 'I' :: 'S' :: 'T' :: 'S' :: v) := by
    show (if isPyWs b then some ((w2' ++ _).dropWhile isPyWs) else none) = _
    rw [if_pos (hw2 b (List.mem_cons_self _ _))]
    rw [dropWhile_run isPyWs w2' (fun c hc => hw2 c (List.mem_cons_of_mem _ hc)) _
      (Or.inr ⟨'E', _, rfl, by decide⟩)]
  rw [s4]
  simp only [Option.some_bind]
  have s5 : dropCI ("exists".toList) ('E' :: 'X' :: 'I' :: 'S' :: 'T' :: 'S' :: v) = some v :=
    rfl
  rw [s5]
  simp only [Option.some_bind]
  rcases hv with rfl | ⟨c, cs, rfl, hc⟩
  · rfl
  · simp [tailBoundary, hc]

/-- The `AUTO_INCREMENT=` literal as it appears in the rendered clause. -/
def aiLit : List Char := "AUTO_INCREMENT=".toList

theorem matchAI_full (d r w : List Char)
    (hd : d ≠ []) (hdd : ∀ c ∈ d, c.isDigit = true)
    (hr : ∀ c ∈ r, isPyWs c = true)
    (hw : w = [] ∨ ∃ c cs, w = c :: cs ∧ isPyWs c = false ∧ c.isDigit = false) :
    matchAI (aiLit ++ (d ++ (r ++ w))) = some w := by
  obtain ⟨a, d', rfl⟩ := List.exists_cons_of_ne_nil hd
  unfold aiLit matchAI
  have s1 : ∀ T : List Char,
      dropCI ("auto_increment=".toList) ("AUTO_INCREMENT=".toList ++ T) = some T :=
    fun T => rfl
  rw [s1]
  simp only [Option.some_bind, List.cons_append]
  have s2 : digits1 (a :: (d' ++ (r ++ w))) = some (r ++ w) := by
    show (if a.isDigit then some ((d' ++ (r ++ w)).dropWhile Char.isDigit) else none) = _
    rw [if_pos (hdd a (List.mem_cons_self _ _))]
    rw [dropWhile_run Char.isDigit d' (fun c hc => hdd c (List.mem_cons_of_mem _ hc))]
    cases hrr : r with
    | cons e r' => exact Or.inr ⟨e, r' ++ w, by rw [List.cons_append], by
        exact not_digit_of_ws e (hr e (by rw [hrr]; exact List.mem_cons_self _ _))⟩
    | nil =>
      rw [List.nil_append]
      rcases hw with rfl | ⟨c, cs, rfl, _, hc2⟩
      · exact Or.inl rfl
      · exact Or.inr ⟨c, cs, rfl, hc2⟩
  rw [s2]
  simp only [Option.some_bind, Option.some_inj]
  rcases hw with rfl | ⟨c, cs, rfl, hc1, _⟩
  · rw [List.append_nil]
    exact List.dropWhile_eq_nil_iff.mpr (fun x hx => by simp [hr x hx])
  · exact dropWhile_run isPyWs r hr _ (Or.inr ⟨c, cs, rfl, hc1⟩)

theorem collapseWs_cons_ws (c d : Char) (hc : isPyWs c = true) (hd : isPyWs d = true)
    (x : List Char) : collapseWs (c :: x) = collapseWs (d :: x) := by
  cases x with
  | nil => simp [collapseWs, hc, hd]
  | cons e t =>
    by_cases he : isPyWs e
    · simp [collapseWs, hc, hd, he]
    · simp [collapseWs, hc, hd, he]

theorem collapseWs_run_head (r : List Char) (hne : r ≠ [])
    (hws : ∀ c ∈ r, isPyWs c = true) (x : List Char) :
    collapseWs (r ++ x) = collapseWs (' ' :: x) := by
  induction r with
  | nil => exact absurd rfl hne
  | cons c r' ih =>
    cases r' with
    | nil =>
      rw [List.cons_append, List.nil_append]
      exact collapseWs_cons_ws c ' ' (hws c (List.mem_cons_self _ _)) (by decide) x
    | cons c2 r'' =>
      rw [List.cons_append, List.cons_append]
      have step : collapseWs (c :: c2 :: (r'' ++ x)) = collapseWs (c2 :: (r'' ++ x)) := by
        simp [collapseWs, hws c (List.mem_cons_self _ _),
          hws c2 (List.mem_cons_of_mem _ (List.mem_cons_self _ _))]
      rw [step, ← List.cons_append]
      exact ih (by simp) (fun d hd => hws d (List.mem_cons_of_mem _ hd))

theorem collapseWs_mid_run (u r1 r2 x : List Char)
    (h1 : r1 ≠ []) (h2 : r2 ≠ [])
    (hw1 : ∀ c ∈ r1, isPyWs c = true) (hw2 : ∀ c ∈ r2, isPyWs c = true) :
    collapseWs (u ++ (r1 ++ x)) = collapseWs (u ++ (r2 ++ x)) := by
  induction u with
  | nil =>
    rw [List.nil_append, List.nil_append, collapseWs_run_head r1 h1 hw1,
      collapseWs_run_head r2 h2 hw2]
  | cons c u' ih =>
    rw [List.cons_append, List.cons_append]
    cases u' with
    | nil =>
      obtain ⟨a1, r1', rfl⟩ := List.exists_cons_of_ne_nil h1
      obtain ⟨a2, r2', rfl⟩ := List.exists_cons_of_ne_nil h2
      rw [List.nil_append, List.nil_append, List.cons_append, List.cons_append]
      by_cases hc : isPyWs c
      · have e1 : collapseWs (c :: a1 :: (r1' ++ x)) = collapseWs (a1 :: (r1' ++ x)) := by
          simp [collapseWs, hc, hw1 a1 (List.mem_cons_self _ _)]
        have e2 : collapseWs (c :: a2 :: (r2' ++ x)) = collapseWs (a2 :: (r2' ++ x)) := by
          simp [collapseWs, hc, hw2 a2 (List.mem_cons_self _ _)]
        rw [e1, e2, ← List.cons_append, ← List.cons_append,
          collapseWs_run_head _ h1 hw1, collapseWs_run_head _ h2 hw2]
      · have e1 : collapseWs (c :: a1 :: (r1' ++ x)) = c :: collapseWs (a1 :: (r1' ++ x)) := by
          simp [collapseWs, hc, hw1 a1 (List.mem_cons_self _ _)]
        have e2 : collapseWs (c :: a2 :: (r2' ++ x)) = c :: collapseWs (a2 :: (r2' ++ x)) := by
          simp [collapseWs, hc, hw2 a2 (List.mem_cons_self _ _)]
        rw [e1, e2, ← List.cons_append, ← List.cons_append,
          collapseWs_run_head _ h1 hw1, collapseWs_run_head _ h2 hw2]
    | cons e u'' =>
      rw [List.cons_append, List.cons_append] at ih ⊢
      by_cases hc : isPyWs c <;> by_cases he : isPyWs e
      · have e1 : collapseWs (c :: e :: (u'' ++ (r1 ++ x))) =
            collapseWs (e :: (u'' ++ (r1 ++ x))) := by simp [collapseWs, hc, he]
        have e2 : collapseWs (c :: e :: (u'' ++ (r2 ++ x))) =
            collapseWs (e :: (u'' ++ (r2 ++ x))) := by simp [collapseWs, hc, he]
        rw [e1, e2]; exact ih
      · have e1 : collapseWs (c :: e :: (u'' ++ (r1 ++ x))) =
            ' ' :: collapseWs (e :: (u'' ++ (r1 ++ x))) := by simp [collapseWs, hc, he]
        have e2 : collapseWs (c :: e :: (u'' ++ (r2 ++ x))) =
            ' ' :: collapseWs (e :: (u'' ++ (r2 ++ x))) := by simp [collapseWs, hc, he]
        rw [e1, e2, ih]
      · have e1 : collapseWs (c :: e :: (u'' ++ (r1 ++ x))) =
            c :: collapseWs (e :: (u'' ++ (r1 ++ x))) := by simp [collapseWs, hc, he]
        have e2 : collapseWs (c :: e :: (u'' ++ (r2 ++ x))) =
            c :: collapseWs (e :: (u'' ++ (r2 ++ x))) := by simp [collapseWs, hc, he]
        rw [e1, e2, ih]
      · have e1 : collapseWs (c :: e :: (u'' ++ (r1 ++ x))) =
            c :: collapseWs (e :: (u'' ++ (r1 ++ x))) := by simp [collapseWs, hc, he]
        have e2 : collapseWs (c :: e :: (u'' ++ (r2 ++ x))) =
            c :: collapseWs (e :: (u'' ++ (r2 ++ x))) := by simp [collapseWs, hc, he]
        rw [e1, e2, ih]

theorem p1ine_match (l rest : List Char) (h : matchINE l = some rest) :
    p1ine false l = p1ine true rest := by
  cases l with
  | nil =>
    have : matchINE ([] : List Char) = none := rfl
    rw [this] at h
    exact absurd h (by simp)
  | cons c cs => exact p1ine_cons_match c cs rest h

theorem p2ai_match (l rest : List Char) (h : matchAI l = some rest) :
    p2ai l = p2ai rest := by
  cases l with
  | nil =>
    have : matchAI ([] : List Char) = none := rfl
    rw [this] at h
    exact absurd h (by simp)
  | cons c cs => exact p2ai_cons_match c cs rest h

/-- One cosmetic rewriting step between statement texts: a change of letter
case, the resizing of a whitespace run, the deletion of an `IF NOT EXISTS`
clause, or the deletion of an `AUTO_INCREMENT=<digits>` assignment.  The
Boolean side conditions pin the step to a position at which neither
substitution pattern would also have matched elsewhere in the affected
prefix, and are all decidable. -/
inductive cosmStep : List Char → List Char → Prop
  | case_ (a b : List Char) (h : a.map Char.toLower = b.map Char.toLower) :
      cosmStep a b
  | ws (u r1 r2 x : List Char)
      (h1 : r1 ≠ []) (h2 : r2 ≠ [])
      (hw1 : ∀ c ∈ r1, isPyWs c = true) (hw2 : ∀ c ∈ r2, isPyWs c = true)
      (hf1 : ineFires false (u ++ r1) x = false)
      (hf2 : ineFires false (u ++ r2) x = false)
      (ha1 : aiFires (u ++ r1) (p1ine false x) = false)
      (ha2 : aiFires (u ++ r2) (p1ine false x) = false) :
      cosmStep (u ++ (r1 ++ x)) (u ++ (r2 ++ x))
  | ine (u w1 w2 v : List Char)
      (hlw : lastW false u = false)
      (h1 : w1 ≠ []) (hw1 : ∀ c ∈ w1, isPyWs c = true)
      (h2 : w2 ≠ []) (hw2 : ∀ c ∈ w2, isPyWs c = true)
      (hv : v = [] ∨ ∃ c cs, v = c :: cs ∧ isWordChar c = false)
      (hmv : matchINE v = none)
      (hfa : ineFires false u (ineClause w1 w2 ++ v) = false)
      (hfb : ineFires false u v = false) :
      cosmStep (u ++ (ineClause w1 w2 ++ v)) (u ++ v)
  | ai (u d r w : List Char)
      (hd : d ≠ []) (hdd : ∀ c ∈ d, c.isDigit = true)
      (hrne : r ≠ []) (hr : ∀ c ∈ r, isPyWs c = true)
      (hlw : lastW false u = false)
      (hw : w = [] ∨ ∃ c cs, w = c :: cs ∧ isPyWs c = false ∧ c.isDigit = false)
      (hmw : matchINE w = none)
      (hfa : ineFires false (u ++ (aiLit ++ (d ++ r))) w = false)
      (hfb : ineFires false u w = false)
      (hga : aiFires u (aiLit ++ (d ++ (r ++ p1ine false w))) = false)
      (hgb : aiFires u (p1ine false w) = false) :
      cosmStep (u ++ (aiLit ++ (d ++ (r ++ w)))) (u ++ w)

/-- Texts joined by a chain of cosmetic steps, in either direction. -/
inductive cosmEq : List Char → List Char → Prop
  | refl (l : List Char) : cosmEq l l
  | step {a b c : List Char} (h : cosmStep a b) (t : cosmEq b c) : cosmEq a c
  | stepRev {a b c : List Char} (h : cosmStep b a) (t : cosmEq b c) : cosmEq a c

theorem cosmStep_normalizeL {a b : List Char} (h : cosmStep a b) :
    normalizeL a = normalizeL b := by
  cases h with
  | case_ a b hc =>
    rw [← normalizeL_lower a, ← normalizeL_lower b, hc]
  | ws u r1 r2 x h1 h2 hw1 hw2 hf1 hf2 ha1 ha2 =>
    have e1 : p1ine false (u ++ (r1 ++ x)) = (u ++ r1) ++ p1ine false x := by
      rw [← List.append_assoc, p1ine_append_of_not_fires _ _ _ hf1,
        lastW_ws_end false u r1 h1 hw1]
    have e2 : p1ine false (u ++ (r2 ++ x)) = (u ++ r2) ++ p1ine false x := by
      rw [← List.append_assoc, p1ine_append_of_not_fires _ _ _ hf2,
        lastW_ws_end false u r2 h2 hw2]
    unfold normalizeL
    rw [e1, e2, p2ai_append_of_not_fires _ _ ha1, p2ai_append_of_not_fires _ _ ha2,
      List.append_assoc, List.append_assoc,
      collapseWs_mid_run u r1 r2 _ h1 h2 hw1 hw2]
  | ine u w1 w2 v hlw h1 hw1 h2 hw2 hv hmv hfa hfb =>
    have e1 : p1ine false (u ++ (ineClause w1 w2 ++ v)) = u ++ p1ine false v := by
      rw [p1ine_append_of_not_fires _ _ _ hfa, hlw,
        p1ine_match _ _ (matchINE_clause w1 w2 v h1 hw1 h2 hw2 hv),
        p1ine_true_eq_false v hmv]
    have e2 : p1ine false (u ++ v) = u ++ p1ine false v := by
      rw [p1ine_append_of_not_fires _ _ _ hfb, hlw]
    unfold normalizeL
    rw [e1, e2]
  | ai u d r w hd hdd hrne hr hlw hw hmw hfa hfb hga hgb =>
    have hw' : p1ine false w = [] ∨
        ∃ c cs, p1ine false w = c :: cs ∧ isPyWs c = false ∧ c.isDigit = false := by
      rcases hw with rfl | ⟨c, cs, rfl, hc1, hc2⟩
      · exact Or.inl rfl
      · rw [p1ine_cons_nomatch _ _ hmw]
        exact Or.inr ⟨c, _, rfl, hc1, hc2⟩
    have e1 : p1ine false (u ++ (aiLit ++ (d ++ (r ++ w)))) =
        u ++ (aiLit ++ (d ++ (r ++ p1ine false w))) := by
      have es : u ++ (aiLit ++ (d ++ (r ++ w))) = (u ++ (aiLit ++ (d ++ r))) ++ w := by
        simp [List.append_assoc]
      rw [es, p1ine_append_of_not_fires _ _ _ hfa]
      have hl : lastW false (u ++ (aiLit ++ (d ++ r))) = false := by
        have es2 : u ++ (aiLit ++ (d ++ r)) = (u ++ (aiLit ++ d)) ++ r := by
          simp [List.append_assoc]
        rw [es2]
        exact lastW_ws_end _ _ _ hrne hr
      rw [hl]
      simp [List.append_assoc]
    have e2 : p2ai (u ++ (aiLit ++ (d ++ (r ++ p1ine false w)))) =
        u ++ p2ai (p1ine false w) := by
      rw [p2ai_append_of_not_fires _ _ hga]
      exact congrArg _ (p2ai_match _ _ (matchAI_full d r (p1ine false w) hd hdd hr hw'))
    have e3 : p1ine false (u ++ w) = u ++ p1ine false w := by
      rw [p1ine_append_of_not_fires _ _ _ hfb, hlw]
    have e4 : p2ai (u ++ p1ine false w) = u ++ p2ai (p1ine false w) :=
      p2ai_append_of_not_fires _ _ hgb
    unfold normalizeL
    rw [e1, e2, e3, e4]

theorem cosmEq_normalizeL {a b : List Char} (h : cosmEq a b) :
    normalizeL a = normalizeL b := by
  induction h with
  | refl l => rfl
  | step h _ ih => rw [cosmStep_normalizeL h, ih]
  | stepRev h _ ih => rw [← cosmStep_normalizeL h, ih]

theorem cosmEq_example :
    cosmEq ("CREATE TABLE IF NOT EXISTS `t` (i INT) AUTO_INCREMENT=5 ;".toList)
      ("create table `t` (i int) ;".toList) := by
  have s1 : cosmStep ("CREATE TABLE IF NOT EXISTS `t` (i INT) AUTO_INCREMENT=5 ;".toList)
      ("CREATE TABLE  `t` (i INT) AUTO_INCREMENT=5 ;".toList) := by
    have e0 : "CREATE TABLE IF NOT EXISTS `t` (i INT) AUTO_INCREMENT=5 ;".toList =
        "CREATE TABLE ".toList ++
          (ineClause [' '] [' '] ++ " `t` (i INT) AUTO_INCREMENT=5 ;".toList) := by
      decide
    have e1 : "CREATE TABLE  `t` (i INT) AUTO_INCREMENT=5 ;".toList =
        "CREATE TABLE ".toList ++ " `t` (i INT) AUTO_INCREMENT=5 ;".toList := by
      decide
    rw [e0, e1]
    exact cosmStep.ine _ _ _ _ (by decide) (by decide) (by decide) (by decide) (by decide)
      (Or.inr ⟨' ', "`t` (i INT) AUTO_INCREMENT=5 ;".toList, by decide, by decide⟩)
      (by decide) (by decide) (by decide)
  have s2 : cosmStep ("CREATE TABLE  `t` (i INT) AUTO_INCREMENT=5 ;".toList)
      ("CREATE TABLE `t` (i INT) AUTO_INCREMENT=5 ;".toList) := by
    have e2 : "CREATE TABLE  `t` (i INT) AUTO_INCREMENT=5 ;".toList =
        "CREATE TABLE".toList ++
          ([' ', ' '] ++ "`t` (i INT) AUTO_INCREMENT=5 ;".toList) := by
      decide
    have e3 : "CREATE TABLE `t` (i INT) AUTO_INCREMENT=5 ;".toList =
        "CREATE TABLE".toList ++ ([' '] ++ "`t` (i INT) AUTO_INCREMENT=5 ;".toList) := by
      decide
    rw [e2, e3]
    exact cosmStep.ws _ _ _ _ (by decide) (by decide) (by decide) (by decide)
      (by decide) (by decide) (by decide) (by decide)
  have s3 : cosmStep ("CREATE TABLE `t` (i INT) AUTO_INCREMENT=5 ;".toList)
      ("CREATE TABLE `t` (i INT) ;".toList) := by
    have e4 : "CREATE TABLE `t` (i INT) AUTO_INCREMENT=5 ;".toList =
        "CREATE TABLE `t` (i INT) ".toList ++ (aiLit ++ (['5'] ++ ([' '] ++ [';']))) := by
      decide
    have e5 : "CREATE TABLE `t` (i INT) ;".toList =
        "CREATE TABLE `t` (i INT) ".toList ++ [';'] := by
      decide
    rw [e4, e5]
    exact cosmStep.ai _ _ _ _ (by decide) (by decide) (by decide) (by decide) (by decide)
      (Or.inr ⟨';', [], by decide, by decide, by decide⟩)
      (by decide) (by decide) (by decide) (by decide) (by decide)
  have s4 : cosmStep ("CREATE TABLE `t` (i INT) ;".toList)
      ("create table `t` (i int) ;".toList) :=
    cosmStep.case_ _ _ (by decide)
  exact cosmEq.step s1 (cosmEq.step s2 (cosmEq.step s3 (cosmEq.step s4 (cosmEq.refl _))))

/-- C6: the normalizer maps any two statements that differ only by a chain
of cosmetic steps — letter case, the width of a whitespace run, an
`IF NOT EXISTS` clause, or an `AUTO_INCREMENT=<digits>` assignment — to the
same canonical string, so any fingerprint function (md5 in `schema.py`)
agrees on the two. -/
theorem normalize_cosmetic_invariant (a b : String) (md5h : String → String)
    (h : cosmEq a.toList b.toList) :
    Dborbit.normalize a = Dborbit.normalize b ∧
    md5h (Dborbit.normalize a) = md5h (Dborbit.normalize b) := by
  have e : normalizeL a.toList = normalizeL b.toList := cosmEq_normalizeL h
  refine ⟨?_, ?_⟩
  · rw [normalize_eq_normalizeL, normalize_eq_normalizeL, e]
  · rw [normalize_eq_normalizeL, normalize_eq_normalizeL, e]

theorem normalize_cosmetic_invariant_witness :
    Dborbit.normalize "CREATE TABLE IF NOT EXISTS `t` (i INT) AUTO_INCREMENT=5 ;" =
        Dborbit.normalize "create table `t` (i int) ;" ∧
      (fun s : String => s)
          (Dborbit.normalize "CREATE TABLE IF NOT EXISTS `t` (i INT) AUTO_INCREMENT=5 ;") =
        (fun s : String => s) (Dborbit.normalize "create table `t` (i int) ;") :=
  normalize_cosmetic_invariant _ _ (fun s => s) cosmEq_example
